import Mathlib

/- Verification of the search-and-copy engine of SmartFileCopier
   (source file file_copy.py), through a shallow embedding.

   Modelling conventions:
   * the filesystem is an association list from path strings to file data;
   * the SHA-256 content hash of a file is modelled by the file content
     itself (SHA-256 is treated as collision free, so content equality and
     hash equality coincide);
   * the cooperative cancellation flag (CopyWorker.stop / is_running) is
     modelled by a schedule: an optional number of is_running polls that
     return true, after which every poll returns false.  Each call of
     is_running consumes one poll.  get_file_hash polls once per call
     (the source polls once per 8192-byte chunk);
   * paths are plain strings joined with a slash; os.path.normpath is the
     identity on the already normalized paths this model builds;
   * Qt signal emissions are modelled as an event trace; the shutil.copy2
     call itself is recorded in the trace as a copyEv event;
   * str.lower is modelled on the ASCII range (Char.toLower). -/

namespace SmartFileCopier

/-- One file of the modelled filesystem: its content (standing both for the
byte content and for its content hash) and whether reading it for hashing
succeeds (false models an OSError inside get_file_hash). -/
structure FileData where
  content : String
  hashOk : Bool
deriving DecidableEq, Repr

/-- A filesystem: an association list from paths to file data. -/
abbrev Fs := List (String × FileData)

/-- Path lookup in a modelled filesystem (first match wins, so consing a
new entry overwrites an old one). -/
def lookupFs (fs : Fs) (p : String) : Option FileData :=
  match fs.find? (fun e => e.1 == p) with
  | some e => some e.2
  | none => none

/-- Substring test on character lists, used to model the Python operator
`kw in name`. -/
def subAux (p : List Char) : List Char → Bool
  | [] => p.isEmpty
  | c :: t => p.isPrefixOf (c :: t) || subAux p t

/-- `strContains s pat` models the Python expression `pat in s`. -/
def strContains (s pat : String) : Bool := subAux pat.data s.data

/-- Models str.startswith. -/
def strStartsWith (s pre : String) : Bool := pre.data.isPrefixOf s.data

/-- Models str.endswith. -/
def strEndsWith (s suf : String) : Bool := suf.data.reverse.isPrefixOf s.data.reverse

/-- Models os.path.join for the two-argument posix case. -/
def joinPath (a b : String) : String :=
  if strStartsWith b "/" then b
  else if a == "" then b
  else if strEndsWith a "/" then a ++ b
  else a ++ "/" ++ b

/-- Models os.path.basename: the part after the last slash. -/
def basename (s : String) : String :=
  String.mk ((s.data.reverse.takeWhile (fun c => c != '/')).reverse)

/-- Models os.path.dirname: everything up to the last slash, with trailing
slashes stripped unless the head consists only of slashes. -/
def dirname (s : String) : String :=
  let headRev := s.data.reverse.dropWhile (fun c => c != '/')
  if headRev.all (fun c => c == '/') then String.mk headRev.reverse
  else String.mk ((headRev.dropWhile (fun c => c == '/')).reverse)

/-- Models os.path.splitext: splits at the last dot of the basename, with
leading dots of the basename never starting an extension. -/
def splitExt (s : String) : String × String :=
  let bn := s.data.reverse.takeWhile (fun c => c != '/')
  let extRev := bn.takeWhile (fun c => c != '.')
  let restRev := bn.dropWhile (fun c => c != '.')
  match restRev with
  | [] => (s, "")
  | _ :: baseRev =>
    if baseRev.all (fun c => c == '.') then (s, "")
    else (String.mk ((s.data.take (s.data.length - bn.length)) ++ baseRev.reverse),
          String.mk ('.' :: extRev.reverse))

/-- Models normalize_turkish: replaces the dotless i by i. -/
def normalize_turkish (s : String) : String :=
  String.mk (s.data.map (fun c => if c == 'ı' then 'i' else c))

/-- Models str.lower on the ASCII range (kernel-computable form). -/
def lowerStr (s : String) : String := String.mk (s.data.map Char.toLower)

/-- Models str.strip: removes leading and trailing whitespace. -/
def trimStr (s : String) : String :=
  String.mk (((s.data.dropWhile Char.isWhitespace).reverse.dropWhile
    Char.isWhitespace).reverse)

/-- Code-point lexicographic comparison of character lists, the model of the
Python string order used by list.sort. -/
def lexLe : List Char → List Char → Bool
  | [], _ => true
  | _ :: _, [] => false
  | a :: as, b :: bs => if a < b then true else if b < a then false else lexLe as bs

/-- Code-point lexicographic order on strings. -/
def strLe (a b : String) : Bool := lexLe a.data b.data

/-- Models _extract_folder_number, i.e. re.match of
(digits+ dot digits+ dot digits+)(underscore anything)? anchored at the
start and end of the folder name, returning the dotted triple. -/
def _extract_folder_number (s : String) : Option String :=
  let cs := s.data
  let d1 := cs.takeWhile Char.isDigit
  let r1 := cs.dropWhile Char.isDigit
  if d1.isEmpty then none else
  match r1 with
  | '.' :: r2 =>
    let d2 := r2.takeWhile Char.isDigit
    let r3 := r2.dropWhile Char.isDigit
    if d2.isEmpty then none else
    match r3 with
    | '.' :: r4 =>
      let d3 := r4.takeWhile Char.isDigit
      let r5 := r4.dropWhile Char.isDigit
      if d3.isEmpty then none else
      match r5 with
      | [] => some (String.mk (d1 ++ '.' :: d2 ++ '.' :: d3))
      | '_' :: _ => some (String.mk (d1 ++ '.' :: d2 ++ '.' :: d3))
      | _ => none
    | _ => none
  | _ => none

/-- The fixed COPY_TARGET_EXTENSIONS configuration. -/
def copyTargetExtensions : List String := [".xlsx", ".dxd", ".d7d"]

/-- One observable emission of the worker.  statusEv, progressEv, logEv,
completeEv (files, dirs; the wall-clock duration argument is outside this
model), confirmEv and errorEv model the Qt signals; copyEv models the
shutil.copy2 filesystem write. -/
inductive Event where
  | statusEv (s : String)
  | progressEv (n : Nat)
  | logEv (s : String)
  | completeEv (files dirs : Nat)
  | confirmEv (n : Nat)
  | errorEv (s : String)
  | copyEv (dest : String)
deriving DecidableEq, Repr

/-- Discriminator for completion events. -/
def isCompleteEv : Event → Bool
  | .completeEv _ _ => true
  | _ => false

/-- Discriminator for confirmation-request events. -/
def isConfirmEv : Event → Bool
  | .confirmEv _ => true
  | _ => false

/-- Discriminator for physical-copy events. -/
def isCopyEv : Event → Bool
  | .copyEv _ => true
  | _ => false

/-- Discriminator for progress events. -/
def isProgressEv : Event → Bool
  | .progressEv _ => true
  | _ => false

/-- Number of events of a trace satisfying a discriminator. -/
def countEv (p : Event → Bool) (l : List Event) : Nat := l.countP p

/-- The cancellation schedule: with stop = some k, the first k polls of
is_running return true and every later poll returns false (an external
stop request is one way, so the flag never returns to true within a task). -/
def isRun (stop : Option Nat) (polls : Nat) : Bool :=
  match stop with
  | none => true
  | some k => decide (polls < k)

/-- The pattern and number keyword sets derived from the raw keywords
(Python sets are modelled as duplicate-free lists in insertion order). -/
structure SearchParams where
  pattern_keywords : List String
  number_keywords : List String
deriving DecidableEq, Repr

/-- A match record as stored in found_files_map:
(filepath, associated_number, last_folder_name). -/
structure Rec where
  src : String
  num : String
  lastFolder : String
deriving DecidableEq, Repr

/-- A match record as stored in matched_files_details:
(filepath, found_by_keyword, extension, associated_number, last_folder_name). -/
structure Detail where
  path : String
  key : String
  ext : String
  num : String
  lastFolder : String
deriving DecidableEq, Repr

/-- The per-file matching rule of search_files_for_copy (lines 96 to 121):
extension filter, number association (folder first, then filename), and the
per-extension-class match key.  folderNum is the scanned folder number when
it belongs to number_keywords (line 78), none otherwise.  The returned pair
is (found_by_keyword, associated_number). -/
def matchFile (exts : List String) (ps : SearchParams) (folderNum : Option String)
    (filename : String) : Option (String × String) :=
  let extLower := lowerStr (splitExt filename).2
  if !((exts.map lowerStr).contains extLower) then none
  else
    let fn := normalize_turkish (lowerStr filename)
    let fileNum := ps.number_keywords.find? (fun kw => strContains fn kw)
    match folderNum.orElse (fun _ => fileNum) with
    | none => none
    | some n =>
      let foundBy : Option String :=
        if extLower == ".xlsx" then ps.pattern_keywords.find? (fun kw => strContains fn kw)
        else if extLower == ".dxd" || extLower == ".d7d" then some n
        else none
      match foundBy with
      | none => none
      | some k => if k == "" then none else some (k, n)

/-- Lines 122 to 148 of search_files_for_copy: the last_folder_name of a
matched file, empty when its parent directory is one of the source roots. -/
def computeLastFolder (source_roots : List String) (filepath : String) : String :=
  let parent := dirname filepath
  if source_roots.any (fun r => parent == r) then ""
  else
    let lf := basename parent
    if lf == "" then "_UNKNOWN_SOURCE_FOLDER_" else lf

/-- A directory tree entry, the model of what os.scandir enumerates. -/
inductive FTree where
  | file (name : String)
  | dir (name : String) (children : List FTree)

/-- The accumulating state of the search: found_files_map,
matched_files_details, and the number of is_running polls made so far. -/
structure SearchSt where
  map : List (String × List Rec)
  details : List Detail
  polls : Nat
deriving DecidableEq, Repr

/-- One is_running poll during search. -/
def spoll (stop : Option Nat) (st : SearchSt) : Bool × SearchSt :=
  (isRun stop st.polls, { st with polls := st.polls + 1 })

/-- found_files_map.setdefault(kw, []).append(rec): insertion-ordered
dictionary of lists. -/
def mapAppend : List (String × List Rec) → String → Rec → List (String × List Rec)
  | [], k, r => [(k, [r])]
  | e :: t, k, r => if e.1 == k then (e.1, e.2 ++ [r]) :: t else e :: mapAppend t k r

/-- Processing of one regular file during the scandir loop (lines 95 to 152). -/
def searchFileStep (source_roots : List String) (exts : List String) (ps : SearchParams)
    (dirPath : String) (folderNum : Option String) (name : String) (st : SearchSt) : SearchSt :=
  let fp := joinPath dirPath name
  match matchFile exts ps folderNum name with
  | none => st
  | some kn =>
    let lf := computeLastFolder source_roots fp
    { st with
      map := mapAppend st.map kn.1 ⟨fp, kn.2, lf⟩
      details := st.details ++ [⟨fp, kn.1, lowerStr (splitExt name).2, kn.2, lf⟩] }

/-- Lines 57 to 73: the source root owning a directory, by exact match or
prefix-plus-separator match. -/
def findOwnerRoot (source_roots : List String) (d : String) : Option String :=
  source_roots.find? (fun r => d == r || strStartsWith d (r ++ "/"))

/-- Lines 75 to 78: the scanned folder number when it is one of the number
keywords, none otherwise. -/
def folderCtx (ps : SearchParams) (dirPath : String) : Option String :=
  match _extract_folder_number (lowerStr (basename dirPath)) with
  | some n => if ps.number_keywords.contains n then some n else none
  | none => none

mutual

/-- One entry of the scandir loop: a file runs the matching rule, a
subdirectory runs the recursive search_files_for_copy call on the singleton
list [entry_path] (poll at line 54, owner-root check, folder number, the
nested scandir loop, poll at line 154). -/
def searchEntry (stop : Option Nat) (source_roots : List String) (exts : List String)
    (ps : SearchParams) (dirPath : String) (folderNum : Option String) :
    FTree → SearchSt → SearchSt
  | .file name, st => searchFileStep source_roots exts ps dirPath folderNum name st
  | .dir name children, st =>
    let subPath := joinPath dirPath name
    let p := spoll stop st
    if !p.1 then p.2
    else
      match findOwnerRoot source_roots subPath with
      | none => p.2
      | some _ =>
        let st2 := searchEntries stop source_roots exts ps subPath (folderCtx ps subPath)
          children p.2
        (spoll stop st2).2

/-- The scandir loop of one directory: one poll per entry (line 82),
breaking out when the poll fails. -/
def searchEntries (stop : Option Nat) (source_roots : List String) (exts : List String)
    (ps : SearchParams) (dirPath : String) (folderNum : Option String) :
    List FTree → SearchSt → SearchSt
  | [], st => st
  | t :: ts, st =>
    let p := spoll stop st
    if !p.1 then p.2
    else searchEntries stop source_roots exts ps dirPath folderNum ts
      (searchEntry stop source_roots exts ps dirPath folderNum t p.2)

end

/-- Lookup of the scandir result of a top-level directory; none models an
OSError from os.scandir (subtree skipped). -/
def lookupForest (forest : List (String × List FTree)) (d : String) : Option (List FTree) :=
  match forest.find? (fun e => e.1 == d) with
  | some e => some e.2
  | none => none

/-- The top-level loop of search_files_for_copy over current_dirs (called
with the source roots): poll, owner-root check, folder number, scandir loop,
trailing poll at line 154.  A directory missing from the forest models the
OSError branch (lines 156 to 157), which skips the trailing poll. -/
def search_files_for_copy (stop : Option Nat) (source_roots : List String)
    (forest : List (String × List FTree)) (exts : List String) (ps : SearchParams) :
    List String → SearchSt → SearchSt
  | [], st => st
  | d :: ds, st =>
    let p := spoll stop st
    if !p.1 then p.2
    else
      match findOwnerRoot source_roots d with
      | none => search_files_for_copy stop source_roots forest exts ps ds p.2
      | some _ =>
        match lookupForest forest d with
        | none => search_files_for_copy stop source_roots forest exts ps ds p.2
        | some entries =>
          let st2 := searchEntries stop source_roots exts ps d (folderCtx ps d) entries p.2
          let p2 := spoll stop st2
          if !p2.1 then p2.2
          else search_files_for_copy stop source_roots forest exts ps ds p2.2

/-- The accumulating state of the copy phase (CopyWorker.copy_files): the
destination filesystem, the run-scoped hash ledger copied_hashes, the
files_copied and items_processed counters, the ordered list of performed
copies as (destination path, content hash) pairs, the number of renames
performed, the emitted events and the poll counter. -/
structure CopySt where
  fs : Fs
  ledger : List (String × String)
  filesCopied : Nat
  itemsProcessed : Nat
  copies : List (String × String)
  renames : Nat
  events : List Event
  polls : Nat
deriving DecidableEq, Repr

/-- Membership of a hash in the copied_hashes ledger. -/
def ledgerHas (l : List (String × String)) (h : String) : Bool :=
  l.any (fun e => e.1 == h)

/-- One is_running poll during the copy phase. -/
def cpoll (stop : Option Nat) (st : CopySt) : Bool × CopySt :=
  (isRun stop st.polls, { st with polls := st.polls + 1 })

/-- Appends emitted events to the trace. -/
def emit (st : CopySt) (es : List Event) : CopySt := { st with events := st.events ++ es }

/-- Models CopyWorker.get_file_hash on a present or absent file: a missing
file raises an OSError (none), a cancelled poll returns none, a file whose
read fails returns none, otherwise the content hash. -/
def get_file_hash (fs : Fs) (p : String) (running : Bool) : Option String :=
  match lookupFs fs p with
  | none => none
  | some fd => if !running then none else if fd.hashOk then some fd.content else none

/-- The candidate name base_counter ext tried by get_unique_filename. -/
def nthName (base ext : String) (n : Nat) : String := base ++ "_" ++ toString n ++ ext

/-- The degraded fallback name returned after the 1000-attempt cap. -/
def manyDupName (base ext : String) (n : Nat) : String :=
  base ++ "_ MANY_DUPLICATES_" ++ toString n ++ ext

/-- The while loop of get_unique_filename, entered with counter c and the
candidate base_c ext: a free candidate is returned, otherwise the counter
is incremented, and past 1000 the fallback name is returned unchecked. -/
def uniqueLoopF (fs : Fs) (base ext : String) : Nat → Nat → String
  | 0, c => manyDupName base ext c
  | f + 1, c =>
    if (lookupFs fs (nthName base ext c)).isNone then nthName base ext c
    else if c + 1 > 1000 then manyDupName base ext (c + 1)
    else uniqueLoopF fs base ext f (c + 1)

def uniqueLoop (fs : Fs) (base ext : String) (c : Nat) : String :=
  uniqueLoopF fs base ext (1001 - c) c

/-- Models CopyWorker.get_unique_filename (lines 211 to 223). -/
def get_unique_filename (fs : Fs) (dest_path : String) : String :=
  if (lookupFs fs dest_path).isNone then dest_path
  else uniqueLoop fs (splitExt dest_path).1 (splitExt dest_path).2 1

/-- Lines 286 to 293: the destination folder of a record, the destination
root itself when last_folder_name is empty (truthiness of the string),
otherwise destination root joined with last_folder_name; os.path.normpath
is the identity on these already normalized joins. -/
def finalDestFolder (destination_folder lastFolder : String) : String :=
  if lastFolder != "" then joinPath destination_folder lastFolder else destination_folder

/-- Line 294: the computed destination path of a record. -/
def destPathOf (destination_folder : String) (r : Rec) : String :=
  joinPath (finalDestFolder destination_folder r.lastFolder) (basename r.src)

/-- The successful shutil.copy2 step (lines 362 to 364): write the content
at the destination path, bump files_copied, record the hash in the ledger. -/
def doCopy (st : CopySt) (p h : String) : CopySt :=
  { st with fs := (p, ⟨h, true⟩) :: st.fs,
            filesCopied := st.filesCopied + 1,
            ledger := (h, p) :: st.ledger,
            copies := st.copies ++ [(p, h)],
            events := st.events ++ [Event.copyEv p] }

/-- The body of the inner per-file loop of copy_files (lines 278 to 377)
for one record.  The returned boolean is false exactly on the break at
line 341 (cancelled while hashing the destination file).  os.makedirs is
modelled as always succeeding, and an OSError of shutil.copy2 itself is not
modelled (no claim concerns either failure). -/
def processRecord (stop : Option Nat) (srcFs : Fs) (destination_folder : String)
    (total_items : Nat) (st : CopySt) (r : Rec) : CopySt × Bool :=
  let base := basename r.src
  let dp := destPathOf destination_folder r
  let st := { st with itemsProcessed := st.itemsProcessed + 1 }
  let prog := if total_items > 0 then st.itemsProcessed * 100 / total_items else 0
  let st := emit st [Event.statusEv ("Copying [" ++ toString st.itemsProcessed ++ "/" ++
    toString total_items ++ "]: " ++ base), Event.progressEv prog]
  match lookupFs srcFs r.src with
  | none => (emit st [Event.logEv ("Skipped (Source Not Found/Not File): " ++ base)], true)
  | some _ =>
    let p1 := cpoll stop st
    match get_file_hash srcFs r.src p1.1 with
    | none =>
      let p2 := cpoll stop p1.2
      (if p2.1 then emit p2.2 [Event.logEv ("Skipped (Hashing Failed): " ++ base)] else p2.2,
        true)
    | some h =>
      if ledgerHas p1.2.ledger h then
        (emit p1.2 [Event.logEv ("Skipped File (Duplicate Content): " ++ base)], true)
      else
        match lookupFs p1.2.fs dp with
        | none => (doCopy p1.2 dp h, true)
        | some _ =>
          let p3 := cpoll stop p1.2
          match get_file_hash p3.2.fs dp p3.1 with
          | none =>
            let p4 := cpoll stop p3.2
            if p4.1 then
              let st5 := emit { p4.2 with renames := p4.2.renames + 1 }
                [Event.logEv ("Renamed File (Dest Hash Failed): " ++ base)]
              (doCopy st5 (get_unique_filename st5.fs dp) h, true)
            else (p4.2, false)
          | some dh =>
            if dh == h then
              (emit { p3.2 with ledger := (h, dp) :: p3.2.ledger }
                [Event.logEv ("Skipped File (Identical Exists at Dest): " ++ base)], true)
            else
              let st5 := emit { p3.2 with renames := p3.2.renames + 1 }
                [Event.logEv ("Renamed File (Name Conflict): " ++ base)]
              (doCopy st5 (get_unique_filename st5.fs dp) h, true)

/-- The inner per-file loop of copy_files: one poll at the top of each
iteration (line 279), the break at line 341 ends the loop. -/
def copyRecs (stop : Option Nat) (srcFs : Fs) (destination_folder : String)
    (total_items : Nat) : CopySt → List Rec → CopySt
  | st, [] => st
  | st, r :: rs =>
    let p := cpoll stop st
    if !p.1 then p.2
    else
      let q := processRecord stop srcFs destination_folder total_items p.2 r
      if q.2 then copyRecs stop srcFs destination_folder total_items q.1 rs else q.1

/-- The outer per-group loop of copy_files: poll at line 271, empty groups
skipped at line 272, group log line at line 275, trailing poll at line 379. -/
def copyGroups (stop : Option Nat) (srcFs : Fs) (destination_folder : String)
    (total_items : Nat) : CopySt → List (String × List Rec) → CopySt
  | st, [] => st
  | st, g :: gs =>
    let p := cpoll stop st
    if !p.1 then p.2
    else if g.2.isEmpty then copyGroups stop srcFs destination_folder total_items p.2 gs
    else
      let st1 := emit p.2 [Event.logEv ("Processing group: " ++ g.1)]
      let st2 := copyRecs stop srcFs destination_folder total_items st1 g.2
      let p2 := cpoll stop st2
      if !p2.1 then p2.2
      else copyGroups stop srcFs destination_folder total_items p2.2 gs

/-- The fresh state copy_files starts from: given destination tree, empty
ledger and zeroed counters (lines 262 to 264). -/
def initCopySt (destFs : Fs) (polls : Nat) : CopySt :=
  { fs := destFs, ledger := [], filesCopied := 0, itemsProcessed := 0,
    copies := [], renames := 0, events := [], polls := polls }

/-- Models CopyWorker.copy_files (lines 248 to 384). -/
def copy_files (stop : Option Nat) (srcFs : Fs) (all_paths : List (String × List Rec))
    (destination_folder : String) (total_items : Nat) (destFs : Fs) (polls : Nat) : CopySt :=
  copyGroups stop srcFs destination_folder total_items (initCopySt destFs polls) all_paths

/-- The pattern-keyword set of run_file_copy_task line 405: lowercased,
stripped, Turkish-normalized keywords that are one of of, uf, if. -/
def prepPattern (keywords : List String) : List String :=
  ((keywords.map (fun kw => normalize_turkish (trimStr (lowerStr kw)))).filter
    (fun k => k == "of" || k == "uf" || k == "if")).eraseDups

/-- The number-keyword set of run_file_copy_task line 406: stripped
keywords accepted by FOLDER_NUM_REGEX. -/
def prepNumber (keywords : List String) : List String :=
  ((keywords.map trimStr).filter (fun k => (_extract_folder_number k).isSome)).eraseDups

/-- The search parameters derived from the raw keyword list. -/
def prepParams (keywords : List String) : SearchParams :=
  { pattern_keywords := prepPattern keywords, number_keywords := prepNumber keywords }

/-- Dictionary lookup for the keyword remapping. -/
def lookupAssoc (m : List (String × String)) (k : String) : Option String :=
  match m.find? (fun e => e.1 == k) with
  | some e => some e.2
  | none => none

/-- Dictionary update, later insertions of a key overwrite earlier ones. -/
def updAssoc : List (String × String) → String → String → List (String × String)
  | [], k, v => [(k, v)]
  | e :: t, k, v => if e.1 == k then (k, v) :: t else e :: updAssoc t k v

/-- Lines 436 to 437: the map from internal match keys back to the
user-provided keywords. -/
def origKeywordMap (keywords : List String) (numberSet : List String) :
    List (String × String) :=
  let m1 := keywords.foldl (fun m kw =>
    let nk := normalize_turkish (trimStr (lowerStr kw))
    if nk == "of" || nk == "uf" || nk == "if" then updAssoc m nk kw else m) []
  keywords.foldl (fun m kw =>
    let sk := trimStr kw
    if numberSet.contains sk then updAssoc m sk sk else m) m1

/-- all_paths_structured.setdefault(kw, []).extend(recs). -/
def mapAppendList : List (String × List Rec) → String → List Rec → List (String × List Rec)
  | [], k, rs => [(k, rs)]
  | e :: t, k, rs => if e.1 == k then (e.1, e.2 ++ rs) :: t else e :: mapAppendList t k rs

/-- Stable insertion of an element into a sorted list. -/
def insertLe {α : Type} (le : α → α → Bool) (x : α) : List α → List α
  | [] => [x]
  | y :: t => if le x y then x :: y :: t else y :: insertLe le x t

/-- Stable insertion sort, the model of the Python list.sort calls. -/
def insSort {α : Type} (le : α → α → Bool) : List α → List α
  | [] => []
  | x :: t => insertLe le x (insSort le t)

/-- Lines 439 to 458: regroup found_files_map under the user keywords,
drop empty groups, sort groups by keyword and records by filepath. -/
def regroup (keywords : List String) (ps : SearchParams)
    (found : List (String × List Rec)) : List (String × List Rec) :=
  let okm := origKeywordMap keywords ps.number_keywords
  let structured := found.foldl (fun acc e =>
    let orig := match lookupAssoc okm e.1 with
      | some o => o
      | none => if ps.number_keywords.contains e.1 then e.1 else "UNKNOWN_MAP_" ++ e.1
    mapAppendList acc orig e.2) []
  let lst := (structured.filter (fun e => !e.2.isEmpty)).map
    (fun e => (e.1, insSort (fun r1 r2 => strLe r1.src r2.src) e.2))
  insSort (fun a b => strLe a.1 b.1) lst

/-- Line 459: total number of files found. -/
def totalFound (lst : List (String × List Rec)) : Nat :=
  (lst.map (fun e => e.2.length)).sum

/-- Lines 461 to 473: the search summary log lines. -/
def summaryEvents (details : List Detail) : List Event :=
  if details.isEmpty then [Event.logEv "--- Search Found 0 Files ---"]
  else Event.logEv "--- Search Found Files ---" ::
    (insSort (fun a b => strLe a.path b.path) details).map (fun d => Event.logEv d.path)

/-- Models the inner function _start_actual_copy of run_file_copy_task
(lines 485 to 506): entry poll, the copy phase, and the completion poll
choosing between the normal, 100-percent-progress completion and the
partial-count stopped completion. -/
def startActualCopy (stop : Option Nat) (srcFs : Fs) (all_paths : List (String × List Rec))
    (destination_folder : String) (total : Nat) (destFs : Fs) (polls : Nat) : List Event :=
  if !isRun stop polls then
    [Event.logEv "Copy cancelled before actual copy phase could start.", Event.completeEv 0 0]
  else
    let r := copy_files stop srcFs all_paths destination_folder total destFs (polls + 1)
    if isRun stop r.polls then
      r.events ++
        [Event.statusEv ("Copy complete: Copied " ++ toString r.filesCopied ++ " files."),
         Event.logEv "Copying phase took", Event.logEv "--- Copy Finished ---",
         Event.completeEv r.filesCopied 0, Event.progressEv 100]
    else
      r.events ++ [Event.logEv "Copy task stopped during copying phase.",
        Event.completeEv r.filesCopied 0]

/-- Models CopyWorker.proceed_with_copy (lines 226 to 245) together with the
continue_copying_callback closure (lines 511 to 516): proceed records the
decision, a true decision invokes the callback only when the task is still
running (the callback is always callable in this model). -/
def proceed_with_copy (stop : Option Nat) (srcFs : Fs) (all_paths : List (String × List Rec))
    (destination_folder : String) (total : Nat) (destFs : Fs) (polls : Nat)
    (proceed : Bool) : List Event :=
  if proceed then
    if isRun stop polls then
      Event.logEv "User confirmed copy. Starting copy phase..." ::
        startActualCopy stop srcFs all_paths destination_folder total destFs (polls + 1)
    else
      [Event.logEv "Copy cancelled before confirmed copy could start.", Event.completeEv 0 0]
  else
    [Event.statusEv "Copy cancelled by user.",
     Event.logEv "Copy cancelled: User chose not to proceed.", Event.completeEv 0 0]

/-- Models CopyWorker.run_file_copy_task (lines 387 to 539) as the event
trace of one whole task invocation.  The forest gives the scandir view of
the source tree, srcFs its content view at copy time, destFs the initial
destination tree.  proceed is the external confirmation decision that
eventually arrives when one is requested.  fatal injects the except branch
of lines 528 to 539 (an exception raised at task start). -/
def run_file_copy_task (stop : Option Nat) (forest : List (String × List FTree))
    (srcFs destFs : Fs) (source_folders keywords : List String)
    (destination_folder : String) (proceed : Bool) (fatal : Bool) : List Event :=
  if fatal then
    [Event.statusEv "Copy Error!", Event.logEv "--- Copy Task Failed ---",
     Event.errorEv "Critical task error", Event.completeEv 0 0]
  else
    let roots := source_folders
    let ev0 : List Event :=
      [Event.statusEv "Copy: Searching...", Event.logEv "--- Start Copy Task ---",
       Event.logEv ("Keywords: " ++ String.intercalate ", " keywords),
       Event.logEv ("Source folders: " ++ String.intercalate ", " roots),
       Event.logEv ("Destination: " ++ destination_folder), Event.progressEv 0]
    let ps := prepParams keywords
    if ps.pattern_keywords.isEmpty && ps.number_keywords.isEmpty then
      ev0 ++ [Event.logEv "No valid keywords provided.",
        Event.statusEv "Copy: No valid keywords.", Event.completeEv 0 0]
    else
      let ev1 := ev0 ++ [Event.logEv "Normalized Patterns", Event.logEv "Number Keywords"]
      let sres := search_files_for_copy stop roots forest copyTargetExtensions ps roots
        ⟨[], [], 0⟩
      let ev2 := ev1 ++ [Event.logEv "Search phase took"]
      if !isRun stop sres.polls then
        ev2 ++ [Event.logEv "Copy task stopped during search.", Event.completeEv 0 0]
      else
        let groups := regroup keywords ps sres.map
        let total := totalFound groups
        let ev3 := ev2 ++ summaryEvents sres.details
        if total == 0 then
          ev3 ++ [Event.statusEv "Copy: Nothing found.", Event.completeEv 0 0]
        else
          let ev4 := ev3 ++
            [Event.statusEv ("Copy: Found " ++ toString total ++ " files.")]
          if total > 20 then
            ev4 ++ [Event.logEv "Waiting for user confirmation", Event.confirmEv total] ++
              proceed_with_copy stop srcFs groups destination_folder total destFs
                (sres.polls + 1) proceed
          else
            ev4 ++ [Event.logEv "Found 20 or fewer files, proceeding directly."] ++
              startActualCopy stop srcFs groups destination_folder total destFs
                (sres.polls + 1)

/-- Invariant of the search state: every recorded last_folder_name was
computed by computeLastFolder from the record filepath. -/
def searchLFInv (source_roots : List String) (st : SearchSt) : Prop :=
  (∀ d ∈ st.details, d.lastFolder = computeLastFolder source_roots d.path) ∧
  (∀ e ∈ st.map, ∀ r ∈ e.2, r.lastFolder = computeLastFolder source_roots r.src)

/-- The run-wide dedup invariant of the copy phase: every copied hash is in
the copied_hashes ledger, and no two copies share a hash. -/
def C1Inv (st : CopySt) : Prop :=
  (∀ ph ∈ st.copies, ledgerHas st.ledger ph.2 = true) ∧
    (st.copies.map Prod.snd).Nodup

/-- Two source roots holding same-named files with different contents, the
setting in which the first copy run disambiguates by renaming. -/
def srcFsC3 : Fs := [("r1/d/f.x", ⟨"A", true⟩), ("r2/d/f.x", ⟨"B", true⟩)]

/-- The single keyword group pairing the two conflicting records. -/
def groupsC3 : List (String × List Rec) :=
  [("k", [⟨"r1/d/f.x", "1.2.3", "d"⟩, ⟨"r2/d/f.x", "1.2.3", "d"⟩])]

/-- The while-loop step of get_unique_filename: within the counter cap the
fuel-indexed loop satisfies the direct recursion of lines 215 to 222. -/
theorem uniqueLoop_eq (fs : Fs) (base ext : String) (c : Nat) (hc : c ≤ 1000) :
    uniqueLoop fs base ext c =
      (if (lookupFs fs (nthName base ext c)).isNone then nthName base ext c
       else if c + 1 > 1000 then manyDupName base ext (c + 1)
       else uniqueLoop fs base ext (c + 1)) := by
  unfold uniqueLoop
  have h1 : 1001 - c = (1000 - c) + 1 := by omega
  have h2 : 1001 - (c + 1) = 1000 - c := by omega
  rw [h1, h2, uniqueLoopF]

theorem isRun_none (p : Nat) : isRun none p = true := rfl

/-- With no cancellation, the inner per-file loop never takes the break at
line 341, so processRecord always asks to continue. -/
theorem processRecord_none_cont (srcFs : Fs) (dR : String) (tot : Nat) (st : CopySt)
    (r : Rec) : (processRecord none srcFs dR tot st r).2 = true := by
  unfold processRecord
  repeat' split <;> simp_all [cpoll, isRun, get_file_hash, emit]

/-- Step case: the source file is gone (line 316): nothing changes except
bookkeeping. -/
theorem step_src_missing (srcFs : Fs) (dR : String) (tot : Nat) (st : CopySt) (r : Rec)
    (h : lookupFs srcFs r.src = none) :
    let st1 := (processRecord none srcFs dR tot st r).1
    st1.fs = st.fs ∧ st1.ledger = st.ledger ∧ st1.copies = st.copies ∧
    st1.renames = st.renames ∧ st1.filesCopied = st.filesCopied := by
  simp [processRecord, cpoll, isRun, get_file_hash, emit, h]

/-- Step case: hashing the source file fails (line 322): nothing changes
except bookkeeping. -/
theorem step_hash_failed (srcFs : Fs) (dR : String) (tot : Nat) (st : CopySt) (r : Rec)
    (sfd : FileData) (h : lookupFs srcFs r.src = some sfd) (hko : sfd.hashOk = false) :
    let st1 := (processRecord none srcFs dR tot st r).1
    st1.fs = st.fs ∧ st1.ledger = st.ledger ∧ st1.copies = st.copies ∧
    st1.renames = st.renames ∧ st1.filesCopied = st.filesCopied := by
  simp [processRecord, cpoll, isRun, get_file_hash, emit, h, hko]

/-- Step case: the content hash is already in the ledger (line 327): the
record is skipped as a duplicate, nothing changes except bookkeeping. -/
theorem step_dup (srcFs : Fs) (dR : String) (tot : Nat) (st : CopySt) (r : Rec)
    (hv : String) (h : get_file_hash srcFs r.src true = some hv)
    (hl : ledgerHas st.ledger hv = true) :
    let st1 := (processRecord none srcFs dR tot st r).1
    st1.fs = st.fs ∧ st1.ledger = st.ledger ∧ st1.copies = st.copies ∧
    st1.renames = st.renames ∧ st1.filesCopied = st.filesCopied := by
  have hsome : ∃ sfd, lookupFs srcFs r.src = some sfd := by
    unfold get_file_hash at h
    cases hh : lookupFs srcFs r.src with
    | none => rw [hh] at h; simp at h
    | some sfd => exact ⟨sfd, rfl⟩
  obtain ⟨sfd, hs⟩ := hsome
  simp [get_file_hash, hs] at h
  rcases h with ⟨h1, h2⟩
  simp [processRecord, cpoll, isRun, emit, hs, hl, h1, h2, get_file_hash]

/-- Step case: an identical file already exists at the destination path
(line 342): skipped, and the hash is recorded in the ledger pointing at the
existing destination path. -/
theorem step_identical (srcFs : Fs) (dR : String) (tot : Nat) (st : CopySt) (r : Rec)
    (hv : String) (dfd : FileData) (h : get_file_hash srcFs r.src true = some hv)
    (hl : ledgerHas st.ledger hv = false)
    (hd : lookupFs st.fs (destPathOf dR r) = some dfd)
    (hdk : dfd.hashOk = true) (hdc : dfd.content = hv) :
    let st1 := (processRecord none srcFs dR tot st r).1
    st1.fs = st.fs ∧ st1.ledger = (hv, destPathOf dR r) :: st.ledger ∧
    st1.copies = st.copies ∧ st1.renames = st.renames ∧
    st1.filesCopied = st.filesCopied := by
  have hsome : ∃ sfd, lookupFs srcFs r.src = some sfd := by
    unfold get_file_hash at h
    cases hh : lookupFs srcFs r.src with
    | none => rw [hh] at h; simp at h
    | some sfd => exact ⟨sfd, rfl⟩
  obtain ⟨sfd, hs⟩ := hsome
  simp [get_file_hash, hs] at h
  rcases h with ⟨h1, h2⟩
  simp [processRecord, cpoll, isRun, emit, hs, hl, h1, h2, get_file_hash, hd, hdk, hdc]

/-- Step case: the destination path is free (line 337 negative): the file
is copied there, counted, and its hash recorded. -/
theorem step_fresh (srcFs : Fs) (dR : String) (tot : Nat) (st : CopySt) (r : Rec)
    (hv : String) (h : get_file_hash srcFs r.src true = some hv)
    (hl : ledgerHas st.ledger hv = false)
    (hd : lookupFs st.fs (destPathOf dR r) = none) :
    let st1 := (processRecord none srcFs dR tot st r).1
    st1.fs = (destPathOf dR r, ⟨hv, true⟩) :: st.fs ∧
    st1.ledger = (hv, destPathOf dR r) :: st.ledger ∧
    st1.copies = st.copies ++ [(destPathOf dR r, hv)] ∧
    st1.renames = st.renames ∧ st1.filesCopied = st.filesCopied + 1 := by
  have hsome : ∃ sfd, lookupFs srcFs r.src = some sfd := by
    unfold get_file_hash at h
    cases hh : lookupFs srcFs r.src with
    | none => rw [hh] at h; simp at h
    | some sfd => exact ⟨sfd, rfl⟩
  obtain ⟨sfd, hs⟩ := hsome
  simp [get_file_hash, hs] at h
  rcases h with ⟨h1, h2⟩
  simp [processRecord, cpoll, isRun, emit, hs, hl, h1, h2, get_file_hash, hd, doCopy]

/-- Step case: a different or unreadable file sits at the destination path
(lines 336 to 359): the record is renamed to the unique name and copied
there; the pre-existing entry at the destination path stays in place. -/
theorem step_conflict (srcFs : Fs) (dR : String) (tot : Nat) (st : CopySt) (r : Rec)
    (hv : String) (dfd : FileData) (h : get_file_hash srcFs r.src true = some hv)
    (hl : ledgerHas st.ledger hv = false)
    (hd : lookupFs st.fs (destPathOf dR r) = some dfd)
    (hconf : dfd.hashOk = false ∨ dfd.content ≠ hv) :
    let st1 := (processRecord none srcFs dR tot st r).1
    let u := get_unique_filename st.fs (destPathOf dR r)
    st1.fs = (u, ⟨hv, true⟩) :: st.fs ∧ st1.ledger = (hv, u) :: st.ledger ∧
    st1.copies = st.copies ++ [(u, hv)] ∧ st1.renames = st.renames + 1 ∧
    st1.filesCopied = st.filesCopied + 1 := by
  have hsome : ∃ sfd, lookupFs srcFs r.src = some sfd := by
    unfold get_file_hash at h
    cases hh : lookupFs srcFs r.src with
    | none => rw [hh] at h; simp at h
    | some sfd => exact ⟨sfd, rfl⟩
  obtain ⟨sfd, hs⟩ := hsome
  simp [get_file_hash, hs] at h
  rcases h with ⟨h1, h2⟩
  rcases hconf with hc | hc
  · simp [processRecord, cpoll, isRun, emit, hs, hl, h1, h2, get_file_hash, hd, hc, doCopy]
  · cases hdk : dfd.hashOk with
    | false => simp [processRecord, cpoll, isRun, emit, hs, hl, h1, h2, get_file_hash, hd,
        hdk, doCopy]
    | true =>
      have hne : (dfd.content == hv) = false := by
        simp [hc]
      simp [processRecord, cpoll, isRun, emit, hs, hl, h1, h2, get_file_hash, hd, hdk, hne,
        doCopy]

theorem ledgerHas_cons (a : String × String) (l : List (String × String)) (h : String) :
    ledgerHas (a :: l) h = ((a.1 == h) || ledgerHas l h) := by
  simp [ledgerHas]

/-- With no cancellation the inner loop just iterates processRecord. -/
theorem copyRecs_none_cons (srcFs : Fs) (dR : String) (tot : Nat) (st : CopySt)
    (r : Rec) (rs : List Rec) :
    copyRecs none srcFs dR tot st (r :: rs) =
      copyRecs none srcFs dR tot
        (processRecord none srcFs dR tot { st with polls := st.polls + 1 } r).1 rs := by
  have hc := processRecord_none_cont srcFs dR tot { st with polls := st.polls + 1 } r
  simp [copyRecs, cpoll, isRun, hc]

/-- Every branch of processRecord either leaves copies untouched (possibly
extending the ledger), or performs exactly one copy whose hash was not in
the ledger and is recorded there. -/
theorem processRecord_shape (stop : Option Nat) (srcFs : Fs) (dR : String) (tot : Nat)
    (st : CopySt) (r : Rec) :
    (let st1 := (processRecord stop srcFs dR tot st r).1
    (st1.copies = st.copies ∧ (st1.ledger = st.ledger ∨
        ∃ a b, st1.ledger = (a, b) :: st.ledger)) ∨
      (∃ p hv, st1.copies = st.copies ++ [(p, hv)] ∧ st1.ledger = (hv, p) :: st.ledger ∧
        ledgerHas st.ledger hv = false)) := by
  simp only [processRecord]
  cases hs : lookupFs srcFs r.src with
  | none => simp [emit]
  | some sfd =>
    simp only [cpoll, emit, get_file_hash, hs]
    cases hok : sfd.hashOk with
    | false => simp [apply_ite (f := CopySt.copies), apply_ite (f := CopySt.ledger), emit]
    | true =>
      simp only [hok]
      cases hrun : isRun stop st.polls with
      | false =>
        simp [apply_ite (f := CopySt.copies), apply_ite (f := CopySt.ledger), emit]
      | true =>
        simp only [Bool.not_true, Bool.false_eq_true, if_false, if_true]
        by_cases hl : ledgerHas st.ledger sfd.content = true
        · simp [hl]
        · rw [Bool.not_eq_true] at hl
          simp only [hl, Bool.false_eq_true, if_false]
          cases hd : lookupFs st.fs (destPathOf dR r) with
          | none =>
            right
            refine ⟨destPathOf dR r, sfd.content, ?_, ?_, hl⟩ <;> simp [doCopy]
          | some dfd =>
            simp only [cpoll, emit]
            have hnonebr : isRun stop (st.polls + 1 + 1) = false ∨
                isRun stop (st.polls + 1 + 1) = true := by
              cases isRun stop (st.polls + 1 + 1) <;> simp
            by_cases hrun2 : isRun stop (st.polls + 1) = true
            · simp only [hrun2, Bool.not_true, Bool.false_eq_true, if_false]
              by_cases hdk : dfd.hashOk = true
              · simp only [hdk, if_true]
                by_cases heq : (dfd.content == sfd.content) = true
                · simp [heq]
                · rw [Bool.not_eq_true] at heq
                  simp only [heq, Bool.false_eq_true, if_false]
                  right
                  refine ⟨get_unique_filename st.fs (destPathOf dR r), sfd.content,
                    ?_, ?_, hl⟩ <;> simp [doCopy, emit]
              · rw [Bool.not_eq_true] at hdk
                simp only [hdk, Bool.false_eq_true, if_false]
                rcases hnonebr with hrun3 | hrun3
                · simp [hrun3]
                · simp only [hrun3, if_true]
                  right
                  refine ⟨get_unique_filename st.fs (destPathOf dR r), sfd.content,
                    ?_, ?_, hl⟩ <;> simp [doCopy, emit]
            · rw [Bool.not_eq_true] at hrun2
              simp only [hrun2, Bool.not_false, if_true]
              rcases hnonebr with hrun3 | hrun3
              · simp [hrun3]
              · simp only [hrun3, if_true]
                right
                refine ⟨get_unique_filename st.fs (destPathOf dR r), sfd.content,
                  ?_, ?_, hl⟩ <;> simp [doCopy, emit]

theorem processRecord_C1Inv (stop : Option Nat) (srcFs : Fs) (dR : String) (tot : Nat)
    (st : CopySt) (r : Rec) (hInv : C1Inv st) :
    C1Inv (processRecord stop srcFs dR tot st r).1 := by
  have hs := processRecord_shape stop srcFs dR tot st r
  simp only at hs
  obtain ⟨h1, h2⟩ := hInv
  rcases hs with ⟨hcop, hled | ⟨a, b, hled⟩⟩ | ⟨p, hv, hcop, hled, hfree⟩
  · exact ⟨by rw [hcop, hled]; exact h1, by rw [hcop]; exact h2⟩
  · refine ⟨?_, by rw [hcop]; exact h2⟩
    intro ph hph
    rw [hcop] at hph
    rw [hled, ledgerHas_cons, h1 ph hph]
    simp
  · constructor
    · intro ph hph
      rw [hcop, List.mem_append] at hph
      rcases hph with hph | hph
      · rw [hled, ledgerHas_cons, h1 ph hph]
        simp
      · rw [List.mem_singleton] at hph
        subst hph
        rw [hled, ledgerHas_cons]
        simp
    · rw [hcop, List.map_append, List.nodup_append]
      refine ⟨h2, by simp, ?_⟩
      intro x hx hx2
      simp only [List.map_cons, List.map_nil, List.mem_singleton] at hx2
      subst hx2
      rw [List.mem_map] at hx
      obtain ⟨ph, hph, hph2⟩ := hx
      have hhas := h1 ph hph
      rw [hph2, hfree] at hhas
      cases hhas

/-- Unfolding of one inner-loop iteration. -/
theorem copyRecs_cons (stop : Option Nat) (srcFs : Fs) (dR : String) (tot : Nat)
    (st : CopySt) (r : Rec) (rs : List Rec) :
    copyRecs stop srcFs dR tot st (r :: rs) =
      (if isRun stop st.polls = true then
        (if (processRecord stop srcFs dR tot { st with polls := st.polls + 1 } r).2 = true then
          copyRecs stop srcFs dR tot
            (processRecord stop srcFs dR tot { st with polls := st.polls + 1 } r).1 rs
         else (processRecord stop srcFs dR tot { st with polls := st.polls + 1 } r).1)
       else { st with polls := st.polls + 1 }) := by
  by_cases h : isRun stop st.polls = true
  · by_cases hq : (processRecord stop srcFs dR tot { st with polls := st.polls + 1 } r).2
      = true <;> simp [copyRecs, cpoll, h, hq]
  · rw [Bool.not_eq_true] at h
    simp [copyRecs, cpoll, h]

/-- Unfolding of one outer-loop iteration. -/
theorem copyGroups_cons (stop : Option Nat) (srcFs : Fs) (dR : String) (tot : Nat)
    (st : CopySt) (g : String × List Rec) (gs : List (String × List Rec)) :
    copyGroups stop srcFs dR tot st (g :: gs) =
      (if isRun stop st.polls = true then
        (if g.2.isEmpty = true then
          copyGroups stop srcFs dR tot { st with polls := st.polls + 1 } gs
         else
           (let st2 := copyRecs stop srcFs dR tot
              (emit { st with polls := st.polls + 1 }
                [Event.logEv ("Processing group: " ++ g.1)]) g.2
            if isRun stop st2.polls = true then
              copyGroups stop srcFs dR tot { st2 with polls := st2.polls + 1 } gs
            else { st2 with polls := st2.polls + 1 }))
       else { st with polls := st.polls + 1 }) := by
  by_cases h : isRun stop st.polls = true
  · by_cases hg : g.2.isEmpty = true
    · simp [copyGroups, cpoll, h, hg]
    · rw [Bool.not_eq_true] at hg
      by_cases h2 : isRun stop (copyRecs stop srcFs dR tot
          (emit { st with polls := st.polls + 1 }
            [Event.logEv ("Processing group: " ++ g.1)]) g.2).polls = true <;>
        simp [copyGroups, cpoll, h, hg, h2]
  · rw [Bool.not_eq_true] at h
    simp [copyGroups, cpoll, h]

theorem copyRecs_C1Inv (stop : Option Nat) (srcFs : Fs) (dR : String) (tot : Nat)
    (rs : List Rec) (st : CopySt) (hInv : C1Inv st) :
    C1Inv (copyRecs stop srcFs dR tot st rs) := by
  induction rs generalizing st with
  | nil => simpa [copyRecs] using hInv
  | cons r rs ih =>
    rw [copyRecs_cons]
    have hInv2 : C1Inv { st with polls := st.polls + 1 } := hInv
    by_cases hp : isRun stop st.polls = true
    · simp only [hp, if_true]
      have hstep := processRecord_C1Inv stop srcFs dR tot { st with polls := st.polls + 1 }
        r hInv2
      by_cases hq : (processRecord stop srcFs dR tot { st with polls := st.polls + 1 } r).2
        = true
      · simp only [hq, if_true]
        exact ih _ hstep
      · rw [Bool.not_eq_true] at hq
        simp only [hq, Bool.false_eq_true, if_false]
        exact hstep
    · rw [Bool.not_eq_true] at hp
      simp only [hp, Bool.false_eq_true, if_false]
      exact hInv2

theorem copyGroups_C1Inv (stop : Option Nat) (srcFs : Fs) (dR : String) (tot : Nat)
    (gs : List (String × List Rec)) (st : CopySt) (hInv : C1Inv st) :
    C1Inv (copyGroups stop srcFs dR tot st gs) := by
  induction gs generalizing st with
  | nil => simpa [copyGroups] using hInv
  | cons g gs ih =>
    rw [copyGroups_cons]
    have hInv2 : C1Inv { st with polls := st.polls + 1 } := hInv
    by_cases hp : isRun stop st.polls = true
    · simp only [hp, if_true]
      by_cases hg : g.2.isEmpty = true
      · simp only [hg, if_true]
        exact ih _ hInv2
      · rw [Bool.not_eq_true] at hg
        simp only [hg, Bool.false_eq_true, if_false]
        have hInv3 : C1Inv (emit { st with polls := st.polls + 1 }
            [Event.logEv ("Processing group: " ++ g.1)]) := hInv
        have hrec := copyRecs_C1Inv stop srcFs dR tot g.2 _ hInv3
        set st2 := copyRecs stop srcFs dR tot (emit { st with polls := st.polls + 1 }
          [Event.logEv ("Processing group: " ++ g.1)]) g.2 with hst2
        have hInv4 : C1Inv { st2 with polls := st2.polls + 1 } := hrec
        by_cases hp2 : isRun stop st2.polls = true
        · simp only [hp2, if_true]
          exact ih _ hInv4
        · rw [Bool.not_eq_true] at hp2
          simp only [hp2, Bool.false_eq_true, if_false]
          exact hInv4
    · rw [Bool.not_eq_true] at hp
      simp only [hp, Bool.false_eq_true, if_false]
      exact hInv2

theorem lookupFs_cons (p : String) (fd : FileData) (fs : Fs) (q : String) :
    lookupFs ((p, fd) :: fs) q = if p == q then some fd else lookupFs fs q := by
  by_cases h : p == q <;> simp [lookupFs, List.find?, h]

theorem length_takeWhile_le {α : Type} (p : α → Bool) (l : List α) :
    (l.takeWhile p).length ≤ l.length := by
  conv_rhs => rw [← List.takeWhile_append_dropWhile p l]
  rw [List.length_append]
  omega

theorem splitExt_length (s : String) :
    (splitExt s).1.length + (splitExt s).2.length = s.length := by
  unfold splitExt
  have hbn : (s.data.reverse.takeWhile (fun c => c != '/')).length ≤ s.data.length := by
    calc (s.data.reverse.takeWhile (fun c => c != '/')).length
        ≤ s.data.reverse.length := length_takeWhile_le _ _
      _ = s.data.length := List.length_reverse _
  cases hrest : (s.data.reverse.takeWhile (fun c => c != '/')).dropWhile
      (fun c => c != '.') with
  | nil => simp [hrest]
  | cons d baseRev =>
    have hsplit : ((s.data.reverse.takeWhile (fun c => c != '/')).takeWhile
          (fun c => c != '.')).length + (d :: baseRev).length
        = (s.data.reverse.takeWhile (fun c => c != '/')).length := by
      rw [← hrest, ← List.length_append, List.takeWhile_append_dropWhile]
    simp only [hrest]
    split
    · simp
    · simp only [String.length_mk, List.length_append, List.length_take,
        List.length_cons, List.length_reverse, String.length]
      simp only [List.length_cons] at hsplit
      omega

theorem nthName_length (base ext : String) (n : Nat) :
    base.length + ext.length < (nthName base ext n).length := by
  simp only [nthName, String.length_append]
  have h1 : "_".length = 1 := by decide
  omega

theorem manyDupName_length (base ext : String) (n : Nat) :
    base.length + ext.length < (manyDupName base ext n).length := by
  simp only [manyDupName, String.length_append]
  have h1 : "_ MANY_DUPLICATES_".length = 18 := by decide
  omega

/-- Every value the unique-name loop can return is strictly longer than
base and extension combined. -/
theorem uniqueLoop_long (fs : Fs) (base ext : String) :
    ∀ k c, k = 1001 - c → c ≤ 1000 →
      base.length + ext.length < (uniqueLoop fs base ext c).length := by
  intro k
  induction k with
  | zero => intro c hk hc; omega
  | succ k ih =>
    intro c hk hc
    rw [uniqueLoop_eq fs base ext c hc]
    by_cases hfree : (lookupFs fs (nthName base ext c)).isNone = true
    · simp only [hfree, if_true]
      exact nthName_length base ext c
    · rw [Bool.not_eq_true] at hfree
      simp only [hfree, Bool.false_eq_true, if_false]
      by_cases hcap : c + 1 > 1000
      · simp only [if_pos hcap]
        exact manyDupName_length base ext (c + 1)
      · simp only [if_neg hcap]
        exact ih (c + 1) (by omega) (by omega)

/-- The incoming name chosen on a conflict is never the computed
destination path itself. -/
theorem get_unique_filename_ne (fs : Fs) (dp : String)
    (h : (lookupFs fs dp).isNone = false) : get_unique_filename fs dp ≠ dp := by
  unfold get_unique_filename
  simp only [h, Bool.false_eq_true, if_false]
  intro heq
  have hlong := uniqueLoop_long fs (splitExt dp).1 (splitExt dp).2 1000 1 (by omega)
    (by omega)
  rw [heq] at hlong
  have hlen := splitExt_length dp
  omega

/-- The loop of get_unique_filename returns the first free candidate among
base_c, base_c+1, ..., base_1000, and the degraded fallback name when all
of them are taken. -/
theorem uniqueLoop_spec (fs : Fs) (base ext : String) :
    ∀ k c, k = 1001 - c → 1 ≤ c → c ≤ 1000 →
      uniqueLoop fs base ext c =
        (match (List.range' c (1001 - c)).find?
            (fun m => (lookupFs fs (nthName base ext m)).isNone) with
         | some n => nthName base ext n
         | none => manyDupName base ext 1001) := by
  intro k
  induction k with
  | zero => intro c hk h1 hc; omega
  | succ k ih =>
    intro c hk h1 hc
    have hrange : (1001 - c) = k + 1 := by omega
    rw [hrange, List.range'_succ]
    rw [uniqueLoop_eq fs base ext c hc]
    by_cases hfree : (lookupFs fs (nthName base ext c)).isNone = true
    · simp [hfree, List.find?]
    · rw [Bool.not_eq_true] at hfree
      simp only [hfree, Bool.false_eq_true, if_false, List.find?_cons]
      by_cases hcap : c + 1 > 1000
      · have hc1000 : c = 1000 := by omega
        have hk0 : k = 0 := by omega
        subst hc1000 hk0
        simp only [if_pos hcap, List.range'_zero, List.find?_nil]
      · simp only [if_neg hcap]
        have := ih (c + 1) (by omega) (by omega) (by omega)
        rw [this]
        have : (1001 - (c + 1)) = k := by omega
        rw [this]

/-- Everything that must hold when the per-file rule produces a record. -/
theorem matchFile_some_elim (exts : List String) (ps : SearchParams)
    (fol : Option String) (f : String) (k n : String)
    (h : matchFile exts ps fol f = some (k, n)) :
    (exts.map lowerStr).contains (lowerStr (splitExt f).2) = true ∧
    fol.orElse (fun _ => ps.number_keywords.find?
      (fun kw => strContains (normalize_turkish (lowerStr f)) kw)) = some n ∧
    (if lowerStr (splitExt f).2 == ".xlsx" then
        ps.pattern_keywords.find? (fun kw => strContains (normalize_turkish (lowerStr f)) kw)
      else if (lowerStr (splitExt f).2 == ".dxd" || lowerStr (splitExt f).2 == ".d7d") then
        some n
      else none) = some k ∧ (k == "") = false := by
  unfold matchFile at h
  by_cases hext : (exts.map lowerStr).contains (lowerStr (splitExt f).2) = true
  · simp only [hext, Bool.not_true, Bool.false_eq_true, if_false] at h
    refine ⟨hext, ?_⟩
    cases hassoc : fol.orElse (fun _ => ps.number_keywords.find?
        (fun kw => strContains (normalize_turkish (lowerStr f)) kw)) with
    | none => rw [hassoc] at h; cases h
    | some n0 =>
      rw [hassoc] at h
      simp only at h
      by_cases hx : (lowerStr (splitExt f).2 == ".xlsx") = true
      · simp only [hx, if_true] at h ⊢
        cases hfind : ps.pattern_keywords.find?
            (fun kw => strContains (normalize_turkish (lowerStr f)) kw) with
        | none => rw [hfind] at h; cases h
        | some k0 =>
          rw [hfind] at h
          simp only at h
          by_cases hk0 : (k0 == "") = true
          · rw [if_pos hk0] at h; cases h
          · rw [Bool.not_eq_true] at hk0
            rw [hk0] at h
            simp only [Bool.false_eq_true, if_false] at h
            obtain ⟨hk, hn⟩ := Prod.mk.injEq .. ▸ Option.some.injEq .. ▸ h
            subst hk; subst hn
            exact ⟨rfl, rfl, hk0⟩
      · rw [Bool.not_eq_true] at hx
        simp only [hx, Bool.false_eq_true, if_false] at h ⊢
        by_cases hdd : ((lowerStr (splitExt f).2 == ".dxd") = true ∨
            (lowerStr (splitExt f).2 == ".d7d") = true)
        · have hdd2 : (lowerStr (splitExt f).2 == ".dxd" ||
              lowerStr (splitExt f).2 == ".d7d") = true := by
            rcases hdd with hd | hd <;> simp [hd]
          simp only [hdd2, if_true] at h ⊢
          by_cases hn0 : (n0 == "") = true
          · rw [if_pos hn0] at h; cases h
          · rw [Bool.not_eq_true] at hn0
            rw [hn0] at h
            simp only [Bool.false_eq_true, if_false] at h
            obtain ⟨hk, hn⟩ := Prod.mk.injEq .. ▸ Option.some.injEq .. ▸ h
            subst hk; subst hn
            exact ⟨rfl, rfl, hn0⟩
        · have hdd2 : (lowerStr (splitExt f).2 == ".dxd" ||
              lowerStr (splitExt f).2 == ".d7d") = false := by
            push_neg at hdd
            simp only [Bool.not_eq_true] at hdd
            simp [hdd.1, hdd.2]
          rw [hdd2] at h
          simp only [Bool.false_eq_true, if_false] at h
          cases h
  · rw [Bool.not_eq_true] at hext
    simp only [hext, Bool.not_false, if_true] at h
    cases h

/-- Introduction rule for spreadsheet matches. -/
theorem matchFile_intro_xlsx (exts : List String) (ps : SearchParams)
    (fol : Option String) (f : String) (n : String)
    (hext : (exts.map lowerStr).contains (lowerStr (splitExt f).2) = true)
    (hx : (lowerStr (splitExt f).2 == ".xlsx") = true)
    (hassoc : fol.orElse (fun _ => ps.number_keywords.find?
      (fun kw => strContains (normalize_turkish (lowerStr f)) kw)) = some n)
    (hp : ∀ k ∈ ps.pattern_keywords, k ≠ "")
    (hpat : ∃ kw ∈ ps.pattern_keywords,
      strContains (normalize_turkish (lowerStr f)) kw = true) :
    (matchFile exts ps fol f).isSome = true := by
  unfold matchFile
  simp only [hext, Bool.not_true, Bool.false_eq_true, if_false, hassoc, hx, if_true]
  have hfind : (ps.pattern_keywords.find?
      (fun kw => strContains (normalize_turkish (lowerStr f)) kw)).isSome = true :=
    List.find?_isSome.mpr hpat
  cases hf2 : ps.pattern_keywords.find?
      (fun kw => strContains (normalize_turkish (lowerStr f)) kw) with
  | none => rw [hf2] at hfind; cases hfind
  | some k =>
    have hk : k ≠ "" := hp k (List.mem_of_find?_eq_some hf2)
    have hk2 : (k == "") = false := by simp [hk]
    simp [hk2]

/-- Introduction rule for the two measurement-data extension classes. -/
theorem matchFile_intro_dxd (exts : List String) (ps : SearchParams)
    (fol : Option String) (f : String) (n : String)
    (hext : (exts.map lowerStr).contains (lowerStr (splitExt f).2) = true)
    (hx : (lowerStr (splitExt f).2 == ".xlsx") = false)
    (hdd : (lowerStr (splitExt f).2 == ".dxd" || lowerStr (splitExt f).2 == ".d7d") = true)
    (hassoc : fol.orElse (fun _ => ps.number_keywords.find?
      (fun kw => strContains (normalize_turkish (lowerStr f)) kw)) = some n)
    (hn0 : n ≠ "") :
    matchFile exts ps fol f = some (n, n) := by
  unfold matchFile
  have hn2 : (n == "") = false := by simp [hn0]
  simp only [hext, Bool.not_true, Bool.false_eq_true, if_false, hassoc, hx, hdd, if_true,
    hn2]

theorem assoc_isSome (ps : SearchParams) (fol : Option String) (f : String) :
    (fol.orElse (fun _ => ps.number_keywords.find?
      (fun kw => strContains (normalize_turkish (lowerStr f)) kw))).isSome = true ↔
    (fol.isSome = true ∨ ∃ kw ∈ ps.number_keywords,
      strContains (normalize_turkish (lowerStr f)) kw = true) := by
  cases fol with
  | some m => simp [Option.orElse]
  | none => simp [Option.orElse, List.find?_isSome]

theorem assoc_ne_empty (ps : SearchParams) (fol : Option String) (f n : String)
    (hn : ∀ k ∈ ps.number_keywords, k ≠ "")
    (hf : ∀ x, fol = some x → x ≠ "")
    (hassoc : fol.orElse (fun _ => ps.number_keywords.find?
      (fun kw => strContains (normalize_turkish (lowerStr f)) kw)) = some n) :
    n ≠ "" := by
  cases fol with
  | some m =>
    simp [Option.orElse] at hassoc
    subst hassoc
    exact hf m rfl
  | none =>
    simp [Option.orElse] at hassoc
    exact hn n (List.mem_of_find?_eq_some hassoc)

/-- C5: the per-file match rule.  A spreadsheet (.xlsx) file produces a
record iff it has a number association and contains a pattern keyword, with
a contained pattern keyword as match key; a .dxd or .d7d file produces a
record iff it has a number association, with the associated number as match
key; without a number association no record is produced.  The keyword sets
are the ones the orchestrator builds, whose members are never empty
strings. -/
theorem C5_match_rule (ps : SearchParams) (folderNum : Option String) (f : String)
    (hp : ∀ k ∈ ps.pattern_keywords, k ≠ "")
    (hn : ∀ k ∈ ps.number_keywords, k ≠ "")
    (hf : ∀ x, folderNum = some x → x ≠ "") :
    (lowerStr (splitExt f).2 = ".xlsx" →
      (((matchFile copyTargetExtensions ps folderNum f).isSome = true ↔
        ((folderNum.isSome = true ∨ ∃ kw ∈ ps.number_keywords,
          strContains (normalize_turkish (lowerStr f)) kw = true) ∧
         ∃ kw ∈ ps.pattern_keywords,
           strContains (normalize_turkish (lowerStr f)) kw = true)) ∧
       ∀ k n, matchFile copyTargetExtensions ps folderNum f = some (k, n) →
         k ∈ ps.pattern_keywords ∧ strContains (normalize_turkish (lowerStr f)) k = true)) ∧
    ((lowerStr (splitExt f).2 = ".dxd" ∨ lowerStr (splitExt f).2 = ".d7d") →
      (((matchFile copyTargetExtensions ps folderNum f).isSome = true ↔
        (folderNum.isSome = true ∨ ∃ kw ∈ ps.number_keywords,
          strContains (normalize_turkish (lowerStr f)) kw = true)) ∧
       ∀ k n, matchFile copyTargetExtensions ps folderNum f = some (k, n) → k = n)) ∧
    (¬ (folderNum.isSome = true ∨ ∃ kw ∈ ps.number_keywords,
        strContains (normalize_turkish (lowerStr f)) kw = true) →
      matchFile copyTargetExtensions ps folderNum f = none) := by
  refine ⟨?_, ?_, ?_⟩
  · intro hx
    have hxb : (lowerStr (splitExt f).2 == ".xlsx") = true := by simp [hx]
    have hext : (copyTargetExtensions.map lowerStr).contains
        (lowerStr (splitExt f).2) = true := by
      rw [hx]; decide
    constructor
    · constructor
      · intro hsome
        obtain ⟨⟨k, n⟩, hkn⟩ := Option.isSome_iff_exists.mp hsome
        obtain ⟨_, hassoc, hkey, hke⟩ :=
          matchFile_some_elim copyTargetExtensions ps folderNum f k n hkn
        refine ⟨(assoc_isSome ps folderNum f).mp (by rw [hassoc]; rfl), ?_⟩
        simp only [hxb, if_true] at hkey
        exact ⟨k, List.mem_of_find?_eq_some hkey, List.find?_some hkey⟩
      · rintro ⟨hassoc, hpat⟩
        have hassoc2 := (assoc_isSome ps folderNum f).mpr hassoc
        obtain ⟨n, hassoc3⟩ := Option.isSome_iff_exists.mp hassoc2
        exact matchFile_intro_xlsx copyTargetExtensions ps folderNum f n hext hxb
          hassoc3 hp hpat
    · intro k n hkn
      obtain ⟨_, _, hkey, _⟩ :=
        matchFile_some_elim copyTargetExtensions ps folderNum f k n hkn
      simp only [hxb, if_true] at hkey
      exact ⟨List.mem_of_find?_eq_some hkey, List.find?_some hkey⟩
  · intro hx
    have hxb : (lowerStr (splitExt f).2 == ".xlsx") = false := by
      rcases hx with hx | hx <;> rw [hx] <;> decide
    have hdd : (lowerStr (splitExt f).2 == ".dxd" ||
        lowerStr (splitExt f).2 == ".d7d") = true := by
      rcases hx with hx | hx <;> rw [hx] <;> decide
    have hext : (copyTargetExtensions.map lowerStr).contains
        (lowerStr (splitExt f).2) = true := by
      rcases hx with hx | hx <;> rw [hx] <;> decide
    constructor
    · constructor
      · intro hsome
        obtain ⟨⟨k, n⟩, hkn⟩ := Option.isSome_iff_exists.mp hsome
        obtain ⟨_, hassoc, _, _⟩ :=
          matchFile_some_elim copyTargetExtensions ps folderNum f k n hkn
        exact (assoc_isSome ps folderNum f).mp (by rw [hassoc]; rfl)
      · intro hassoc
        have hassoc2 := (assoc_isSome ps folderNum f).mpr hassoc
        obtain ⟨n, hassoc3⟩ := Option.isSome_iff_exists.mp hassoc2
        have hn0 := assoc_ne_empty ps folderNum f n hn hf hassoc3
        rw [matchFile_intro_dxd copyTargetExtensions ps folderNum f n hext hxb hdd
          hassoc3 hn0]
        rfl
    · intro k n hkn
      obtain ⟨_, _, hkey, _⟩ :=
        matchFile_some_elim copyTargetExtensions ps folderNum f k n hkn
      rw [hxb] at hkey
      simp only [Bool.false_eq_true, if_false, hdd, if_true] at hkey
      exact (Option.some.injEq .. ▸ hkey).symm
  · intro hnot
    cases hm : matchFile copyTargetExtensions ps folderNum f with
    | none => rfl
    | some kn =>
      obtain ⟨_, hassoc, _, _⟩ := matchFile_some_elim copyTargetExtensions ps folderNum f
        kn.1 kn.2 (by rw [hm])
      exact absurd ((assoc_isSome ps folderNum f).mp (by rw [hassoc]; rfl)) hnot

/-- C5 witness: a spreadsheet named report_of.xlsx in a matching folder is
matched under the pattern key, and a data.dxd file there is matched under
the number key. -/
theorem C5_match_rule_witness :
    ((∀ k ∈ ({ pattern_keywords := ["of"], number_keywords := ["5.4.4"] } :
        SearchParams).pattern_keywords, k ≠ "") ∧
     (matchFile copyTargetExtensions
        { pattern_keywords := ["of"], number_keywords := ["5.4.4"] }
        (some "5.4.4") "report_of.xlsx").isSome = true ∧
     matchFile copyTargetExtensions
        { pattern_keywords := ["of"], number_keywords := ["5.4.4"] }
        (some "5.4.4") "data.dxd" = some ("5.4.4", "5.4.4")) := by
  have h := C5_match_rule { pattern_keywords := ["of"], number_keywords := ["5.4.4"] }
    (some "5.4.4") "report_of.xlsx" (by decide) (by decide) (by intro x hx; cases hx; decide)
  have h2 := C5_match_rule { pattern_keywords := ["of"], number_keywords := ["5.4.4"] }
    (some "5.4.4") "data.dxd" (by decide) (by decide) (by intro x hx; cases hx; decide)
  refine ⟨by decide, ?_, ?_⟩
  · exact ((h.1 (by decide)).1).mpr (by refine ⟨Or.inl (by decide), "of", by decide, by decide⟩)
  · have h3 := ((h2.2.1 (by decide)).1).mpr (Or.inl (by decide))
    obtain ⟨⟨k, n⟩, hkn⟩ := Option.isSome_iff_exists.mp h3
    have hk := (h2.2.1 (by decide)).2 k n hkn
    subst hk
    have : matchFile copyTargetExtensions
        { pattern_keywords := ["of"], number_keywords := ["5.4.4"] }
        (some "5.4.4") "data.dxd" = some ("5.4.4", "5.4.4") := by decide
    exact this

/-- C1: within one copy phase, the run-scoped ledger ensures that at most
one record per distinct content hash is physically copied: the hashes of
the performed copies are pairwise distinct, so no two successfully copied
files have identical content hashes at two destination paths. -/
theorem C1_content_dedup (stop : Option Nat) (srcFs : Fs)
    (groups : List (String × List Rec)) (dR : String) (tot : Nat) (destFs : Fs)
    (polls : Nat) :
    ((copy_files stop srcFs groups dR tot destFs polls).copies.map Prod.snd).Nodup := by
  have h := copyGroups_C1Inv stop srcFs dR tot groups (initCopySt destFs polls)
    ⟨fun ph hph => by simp [initCopySt] at hph, by simp [initCopySt]⟩
  exact h.2

/-- C9: when the scanned folder has a number match, the associated number
stored in the record is the folder number, even if the filename also
contains a number keyword; the filename-derived number is used only when
the folder context is empty, and then it is a number keyword contained in
the normalized filename. -/
theorem C9_folder_number_precedence (ps : SearchParams) (f : String) (k n : String) :
    (∀ m, matchFile copyTargetExtensions ps (some m) f = some (k, n) → n = m) ∧
    (matchFile copyTargetExtensions ps none f = some (k, n) →
      n ∈ ps.number_keywords ∧
        strContains (normalize_turkish (lowerStr f)) n = true) := by
  constructor
  · intro m h
    obtain ⟨_, hassoc, _, _⟩ := matchFile_some_elim copyTargetExtensions ps (some m) f k n h
    simp [Option.orElse] at hassoc
    exact hassoc.symm
  · intro h
    obtain ⟨_, hassoc, _, _⟩ := matchFile_some_elim copyTargetExtensions ps none f k n h
    simp [Option.orElse] at hassoc
    exact ⟨List.mem_of_find?_eq_some hassoc, List.find?_some hassoc⟩

/-- C9 witness: a .dxd file whose name contains 9.9.9 inside a folder
matched as 1.2.3 is associated with 1.2.3; with no folder match the
filename number 9.9.9 is used. -/
theorem C9_folder_number_precedence_witness :
    (matchFile copyTargetExtensions
        { pattern_keywords := [], number_keywords := ["9.9.9", "1.2.3"] }
        (some "1.2.3") "x_9.9.9.dxd" = some ("1.2.3", "1.2.3")) ∧
    ("1.2.3" : String) = "1.2.3" ∧
    (matchFile copyTargetExtensions
        { pattern_keywords := [], number_keywords := ["9.9.9", "1.2.3"] }
        none "x_9.9.9.dxd" = some ("9.9.9", "9.9.9")) ∧
    ("9.9.9" ∈ (["9.9.9", "1.2.3"] : List String) ∧
      strContains (normalize_turkish (lowerStr "x_9.9.9.dxd")) "9.9.9" = true) :=
  ⟨by decide,
   (C9_folder_number_precedence
      { pattern_keywords := [], number_keywords := ["9.9.9", "1.2.3"] }
      "x_9.9.9.dxd" "1.2.3" "1.2.3").1 "1.2.3" (by decide),
   by decide,
   (C9_folder_number_precedence
      { pattern_keywords := [], number_keywords := ["9.9.9", "1.2.3"] }
      "x_9.9.9.dxd" "9.9.9" "9.9.9").2 (by decide)⟩

/-- C10: when a file exists at the computed destination path but hashing it
fails while the task is still running, the record is not skipped: it is
renamed like a name conflict, copied under the unique name, counted, and
its hash recorded in the ledger. -/
theorem C10_dest_hash_fail (srcFs : Fs) (dR : String) (tot : Nat) (st : CopySt)
    (r : Rec) (sfd dfd : FileData)
    (hs : lookupFs srcFs r.src = some sfd) (hok : sfd.hashOk = true)
    (hl : ledgerHas st.ledger sfd.content = false)
    (hd : lookupFs st.fs (destPathOf dR r) = some dfd)
    (hdk : dfd.hashOk = false) :
    (processRecord none srcFs dR tot st r).2 = true ∧
    (processRecord none srcFs dR tot st r).1.filesCopied = st.filesCopied + 1 ∧
    (processRecord none srcFs dR tot st r).1.renames = st.renames + 1 ∧
    (processRecord none srcFs dR tot st r).1.fs =
      (get_unique_filename st.fs (destPathOf dR r), ⟨sfd.content, true⟩) :: st.fs ∧
    (processRecord none srcFs dR tot st r).1.ledger =
      (sfd.content, get_unique_filename st.fs (destPathOf dR r)) :: st.ledger := by
  have hcont := processRecord_none_cont srcFs dR tot st r
  have hhash : get_file_hash srcFs r.src true = some sfd.content := by
    simp [get_file_hash, hs, hok]
  have hstep := step_conflict srcFs dR tot st r sfd.content dfd hhash hl hd (Or.inl hdk)
  simp only at hstep
  exact ⟨hcont, hstep.2.2.2.2, hstep.2.2.2.1, hstep.1, hstep.2.1⟩

/-- C10 witness: a record whose destination entry exists but cannot be
hashed is copied under the disambiguated name and counted. -/
theorem C10_dest_hash_fail_witness :
    (processRecord none [("s/a.x", ⟨"A", true⟩)] "out" 1
        (initCopySt [("out/d/a.x", ⟨"B", false⟩)] 0) ⟨"s/a.x", "1.2.3", "d"⟩).2 = true ∧
    (processRecord none [("s/a.x", ⟨"A", true⟩)] "out" 1
        (initCopySt [("out/d/a.x", ⟨"B", false⟩)] 0) ⟨"s/a.x", "1.2.3", "d"⟩).1.filesCopied =
      (initCopySt [("out/d/a.x", ⟨"B", false⟩)] 0).filesCopied + 1 ∧
    (processRecord none [("s/a.x", ⟨"A", true⟩)] "out" 1
        (initCopySt [("out/d/a.x", ⟨"B", false⟩)] 0) ⟨"s/a.x", "1.2.3", "d"⟩).1.renames =
      (initCopySt [("out/d/a.x", ⟨"B", false⟩)] 0).renames + 1 ∧
    (processRecord none [("s/a.x", ⟨"A", true⟩)] "out" 1
        (initCopySt [("out/d/a.x", ⟨"B", false⟩)] 0) ⟨"s/a.x", "1.2.3", "d"⟩).1.fs =
      (get_unique_filename (initCopySt [("out/d/a.x", ⟨"B", false⟩)] 0).fs
          (destPathOf "out" ⟨"s/a.x", "1.2.3", "d"⟩), ⟨"A", true⟩) ::
        (initCopySt [("out/d/a.x", ⟨"B", false⟩)] 0).fs ∧
    (processRecord none [("s/a.x", ⟨"A", true⟩)] "out" 1
        (initCopySt [("out/d/a.x", ⟨"B", false⟩)] 0) ⟨"s/a.x", "1.2.3", "d"⟩).1.ledger =
      ("A", get_unique_filename (initCopySt [("out/d/a.x", ⟨"B", false⟩)] 0).fs
          (destPathOf "out" ⟨"s/a.x", "1.2.3", "d"⟩)) ::
        (initCopySt [("out/d/a.x", ⟨"B", false⟩)] 0).ledger :=
  C10_dest_hash_fail [("s/a.x", ⟨"A", true⟩)] "out" 1
    (initCopySt [("out/d/a.x", ⟨"B", false⟩)] 0) ⟨"s/a.x", "1.2.3", "d"⟩
    ⟨"A", true⟩ ⟨"B", false⟩ (by decide) (by decide) (by decide) (by decide) (by decide)

/-- C4: on a name collision with different content, the unique filename is
base_N.ext for the first free N among 1..1000, with the degraded
MANY_DUPLICATES fallback beyond the 1000-attempt cap, and the pre-existing
file at the computed destination path is never overwritten. -/
theorem C4_name_collision (fs : Fs) (dp : String) (srcFs : Fs) (dR : String)
    (tot : Nat) (st : CopySt) (r : Rec) (sfd dfd : FileData) :
    (get_unique_filename fs dp =
      (if (lookupFs fs dp).isNone then dp
       else
         match (List.range' 1 1000).find? (fun m =>
             (lookupFs fs (nthName (splitExt dp).1 (splitExt dp).2 m)).isNone) with
         | some n => nthName (splitExt dp).1 (splitExt dp).2 n
         | none => manyDupName (splitExt dp).1 (splitExt dp).2 1001)) ∧
    (lookupFs srcFs r.src = some sfd → sfd.hashOk = true →
     ledgerHas st.ledger sfd.content = false →
     lookupFs st.fs (destPathOf dR r) = some dfd → dfd.hashOk = true →
     dfd.content ≠ sfd.content →
       (processRecord none srcFs dR tot st r).1.fs =
         (get_unique_filename st.fs (destPathOf dR r), ⟨sfd.content, true⟩) :: st.fs ∧
       get_unique_filename st.fs (destPathOf dR r) ≠ destPathOf dR r ∧
       lookupFs ((processRecord none srcFs dR tot st r).1.fs) (destPathOf dR r) =
         some dfd) := by
  constructor
  · unfold get_unique_filename
    by_cases hfree : (lookupFs fs dp).isNone = true
    · simp [hfree]
    · rw [Bool.not_eq_true] at hfree
      simp only [hfree, Bool.false_eq_true, if_false]
      have := uniqueLoop_spec fs (splitExt dp).1 (splitExt dp).2 1000 1 (by omega)
        (by omega) (by omega)
      rw [this]
  · intro hs hok hl hd hdk hne
    have hhash : get_file_hash srcFs r.src true = some sfd.content := by
      simp [get_file_hash, hs, hok]
    have hstep := step_conflict srcFs dR tot st r sfd.content dfd hhash hl hd (Or.inr hne)
    simp only at hstep
    have hnone : (lookupFs st.fs (destPathOf dR r)).isNone = false := by
      rw [hd]; rfl
    have hune := get_unique_filename_ne st.fs (destPathOf dR r) hnone
    refine ⟨hstep.1, hune, ?_⟩
    rw [hstep.1, lookupFs_cons]
    have hbeq : (get_unique_filename st.fs (destPathOf dR r) == destPathOf dR r) = false :=
      by simp [hune]
    rw [hbeq]
    simp [hd]

/-- C4 witness: with out/d/f.x and out/d/f_1.x taken, the incoming record
is copied as out/d/f_2.x and the existing destination file survives. -/
theorem C4_name_collision_witness :
    (get_unique_filename [("out/d/f.x", ⟨"B", true⟩), ("out/d/f_1.x", ⟨"C", true⟩)]
        "out/d/f.x" =
      (if (lookupFs [("out/d/f.x", ⟨"B", true⟩), ("out/d/f_1.x", ⟨"C", true⟩)]
          "out/d/f.x").isNone then "out/d/f.x"
       else
         match (List.range' 1 1000).find? (fun m =>
             (lookupFs [("out/d/f.x", ⟨"B", true⟩), ("out/d/f_1.x", ⟨"C", true⟩)]
               (nthName (splitExt "out/d/f.x").1 (splitExt "out/d/f.x").2 m)).isNone) with
         | some n => nthName (splitExt "out/d/f.x").1 (splitExt "out/d/f.x").2 n
         | none => manyDupName (splitExt "out/d/f.x").1 (splitExt "out/d/f.x").2 1001)) ∧
    ((processRecord none [("s/f.x", ⟨"A", true⟩)] "out" 1
        (initCopySt [("out/d/f.x", ⟨"B", true⟩), ("out/d/f_1.x", ⟨"C", true⟩)] 0)
        ⟨"s/f.x", "1.2.3", "d"⟩).1.fs =
      (get_unique_filename
          (initCopySt [("out/d/f.x", ⟨"B", true⟩), ("out/d/f_1.x", ⟨"C", true⟩)] 0).fs
          (destPathOf "out" ⟨"s/f.x", "1.2.3", "d"⟩), ⟨"A", true⟩) ::
        (initCopySt [("out/d/f.x", ⟨"B", true⟩), ("out/d/f_1.x", ⟨"C", true⟩)] 0).fs ∧
     get_unique_filename
        (initCopySt [("out/d/f.x", ⟨"B", true⟩), ("out/d/f_1.x", ⟨"C", true⟩)] 0).fs
        (destPathOf "out" ⟨"s/f.x", "1.2.3", "d"⟩) ≠
       destPathOf "out" ⟨"s/f.x", "1.2.3", "d"⟩ ∧
     lookupFs ((processRecord none [("s/f.x", ⟨"A", true⟩)] "out" 1
        (initCopySt [("out/d/f.x", ⟨"B", true⟩), ("out/d/f_1.x", ⟨"C", true⟩)] 0)
        ⟨"s/f.x", "1.2.3", "d"⟩).1.fs) (destPathOf "out" ⟨"s/f.x", "1.2.3", "d"⟩) =
       some ⟨"B", true⟩) :=
  ⟨(C4_name_collision [("out/d/f.x", ⟨"B", true⟩), ("out/d/f_1.x", ⟨"C", true⟩)]
      "out/d/f.x" [("s/f.x", ⟨"A", true⟩)] "out" 1
      (initCopySt [("out/d/f.x", ⟨"B", true⟩), ("out/d/f_1.x", ⟨"C", true⟩)] 0)
      ⟨"s/f.x", "1.2.3", "d"⟩ ⟨"A", true⟩ ⟨"B", true⟩).1,
   (C4_name_collision [("out/d/f.x", ⟨"B", true⟩), ("out/d/f_1.x", ⟨"C", true⟩)]
      "out/d/f.x" [("s/f.x", ⟨"A", true⟩)] "out" 1
      (initCopySt [("out/d/f.x", ⟨"B", true⟩), ("out/d/f_1.x", ⟨"C", true⟩)] 0)
      ⟨"s/f.x", "1.2.3", "d"⟩ ⟨"A", true⟩ ⟨"B", true⟩).2
     (by decide) (by decide) (by decide) (by decide) (by decide) (by decide)⟩

theorem countEv_append (p : Event → Bool) (a b : List Event) :
    countEv p (a ++ b) = countEv p a + countEv p b := by
  simp [countEv, List.countP_append]

theorem countEv_map_log {α : Type} (f : α → String) (l : List α) (p : Event → Bool)
    (hp : ∀ s, p (Event.logEv s) = false) :
    countEv p (l.map (fun d => Event.logEv (f d))) = 0 := by
  simp only [countEv]
  rw [List.countP_eq_zero]
  intro e he
  obtain ⟨d, _, hd⟩ := List.mem_map.mp he
  rw [← hd, hp]
  exact Bool.false_ne_true

/-- Event accounting of one inner-loop step: no completion and no
confirmation event is ever emitted, and the number of copyEv events grows
exactly with the files_copied counter. -/
theorem processRecord_counts (stop : Option Nat) (srcFs : Fs) (dR : String) (tot : Nat)
    (st : CopySt) (r : Rec) :
    (let st1 := (processRecord stop srcFs dR tot st r).1
    countEv isCompleteEv st1.events = countEv isCompleteEv st.events ∧
    countEv isConfirmEv st1.events = countEv isConfirmEv st.events ∧
    countEv isCopyEv st1.events + st.filesCopied =
      countEv isCopyEv st.events + st1.filesCopied) := by
  simp only [processRecord]
  cases hs : lookupFs srcFs r.src with
  | none =>
    simp [emit, countEv, List.countP_append, isCompleteEv, isConfirmEv, isCopyEv,
      List.countP_cons]
  | some sfd =>
    simp only [cpoll, emit, get_file_hash, hs]
    cases hok : sfd.hashOk with
    | false =>
      simp only [hok, Bool.false_eq_true, if_false, ite_self]
      by_cases hrun2 : isRun stop (st.polls + 1) = true
      · simp [hrun2, emit, countEv, List.countP_append, isCompleteEv, isConfirmEv,
          isCopyEv, List.countP_cons]
      · rw [Bool.not_eq_true] at hrun2
        simp [hrun2, emit, countEv, List.countP_append, isCompleteEv, isConfirmEv,
          isCopyEv, List.countP_cons]
    | true =>
      simp only [hok]
      cases hrun : isRun stop st.polls with
      | false =>
        simp only [Bool.not_false, if_true]
        by_cases hrun2 : isRun stop (st.polls + 1) = true
        · simp [hrun2, emit, countEv, List.countP_append, isCompleteEv, isConfirmEv,
            isCopyEv, List.countP_cons]
        · rw [Bool.not_eq_true] at hrun2
          simp [hrun2, emit, countEv, List.countP_append, isCompleteEv, isConfirmEv,
            isCopyEv, List.countP_cons]
      | true =>
        simp only [Bool.not_true, Bool.false_eq_true, if_false, if_true]
        by_cases hl : ledgerHas st.ledger sfd.content = true
        · simp [hl, emit, countEv, List.countP_append, isCompleteEv, isConfirmEv,
            isCopyEv, List.countP_cons]
        · rw [Bool.not_eq_true] at hl
          simp only [hl, Bool.false_eq_true, if_false]
          cases hd : lookupFs st.fs (destPathOf dR r) with
          | none =>
            simp [doCopy, emit, countEv, List.countP_append, isCompleteEv, isConfirmEv,
              isCopyEv, List.countP_cons]
            omega
          | some dfd =>
            simp only [cpoll, emit]
            by_cases hrun2 : isRun stop (st.polls + 1) = true
            · simp only [hrun2, Bool.not_true, Bool.false_eq_true, if_false]
              by_cases hdk : dfd.hashOk = true
              · simp only [hdk, if_true]
                by_cases heq : (dfd.content == sfd.content) = true
                · simp [heq, emit, countEv, List.countP_append, isCompleteEv,
                    isConfirmEv, isCopyEv, List.countP_cons]
                · rw [Bool.not_eq_true] at heq
                  simp only [heq, Bool.false_eq_true, if_false]
                  simp [doCopy, emit, countEv, List.countP_append, isCompleteEv,
                    isConfirmEv, isCopyEv, List.countP_cons]
                  omega
              · rw [Bool.not_eq_true] at hdk
                simp only [hdk, Bool.false_eq_true, if_false]
                by_cases hrun3 : isRun stop (st.polls + 1 + 1) = true
                · simp only [hrun3, if_true]
                  simp [doCopy, emit, countEv, List.countP_append, isCompleteEv,
                    isConfirmEv, isCopyEv, List.countP_cons]
                  omega
                · rw [Bool.not_eq_true] at hrun3
                  simp only [hrun3, Bool.false_eq_true, if_false]
                  simp [countEv, List.countP_append, isCompleteEv, isConfirmEv,
                    isCopyEv, List.countP_cons]
            · rw [Bool.not_eq_true] at hrun2
              simp only [hrun2, Bool.not_false, if_true]
              by_cases hrun3 : isRun stop (st.polls + 1 + 1) = true
              · simp only [hrun3, if_true]
                simp [doCopy, emit, countEv, List.countP_append, isCompleteEv,
                  isConfirmEv, isCopyEv, List.countP_cons]
                omega
              · rw [Bool.not_eq_true] at hrun3
                simp only [hrun3, Bool.false_eq_true, if_false]
                simp [countEv, List.countP_append, isCompleteEv, isConfirmEv,
                  isCopyEv, List.countP_cons]

theorem copyRecs_counts (stop : Option Nat) (srcFs : Fs) (dR : String) (tot : Nat)
    (rs : List Rec) (st : CopySt) :
    (let st1 := copyRecs stop srcFs dR tot st rs
    countEv isCompleteEv st1.events = countEv isCompleteEv st.events ∧
    countEv isConfirmEv st1.events = countEv isConfirmEv st.events ∧
    countEv isCopyEv st1.events + st.filesCopied =
      countEv isCopyEv st.events + st1.filesCopied) := by
  induction rs generalizing st with
  | nil => simp [copyRecs]
  | cons r rs ih =>
    rw [copyRecs_cons]
    by_cases hp : isRun stop st.polls = true
    · simp only [hp, if_true]
      have hstep := processRecord_counts stop srcFs dR tot
        { st with polls := st.polls + 1 } r
      simp only at hstep ⊢
      by_cases hq : (processRecord stop srcFs dR tot
          { st with polls := st.polls + 1 } r).2 = true
      · simp only [hq, if_true]
        have hrest := ih (processRecord stop srcFs dR tot
          { st with polls := st.polls + 1 } r).1
        simp only at hrest
        refine ⟨by rw [hrest.1, hstep.1], by rw [hrest.2.1, hstep.2.1], ?_⟩
        have h1 := hrest.2.2
        have h2 := hstep.2.2
        omega
      · rw [Bool.not_eq_true] at hq
        simp only [hq, Bool.false_eq_true, if_false]
        exact hstep
    · rw [Bool.not_eq_true] at hp
      simp only [hp, Bool.false_eq_true, if_false]
      simp

theorem copyGroups_counts (stop : Option Nat) (srcFs : Fs) (dR : String) (tot : Nat)
    (gs : List (String × List Rec)) (st : CopySt) :
    (let st1 := copyGroups stop srcFs dR tot st gs
    countEv isCompleteEv st1.events = countEv isCompleteEv st.events ∧
    countEv isConfirmEv st1.events = countEv isConfirmEv st.events ∧
    countEv isCopyEv st1.events + st.filesCopied =
      countEv isCopyEv st.events + st1.filesCopied) := by
  induction gs generalizing st with
  | nil => simp [copyGroups]
  | cons g gs ih =>
    rw [copyGroups_cons]
    by_cases hp : isRun stop st.polls = true
    · simp only [hp, if_true]
      by_cases hg : g.2.isEmpty = true
      · simp only [hg, if_true]
        have hrest := ih { st with polls := st.polls + 1 }
        simpa using hrest
      · rw [Bool.not_eq_true] at hg
        simp only [hg, Bool.false_eq_true, if_false]
        have hrec := copyRecs_counts stop srcFs dR tot g.2
          (emit { st with polls := st.polls + 1 }
            [Event.logEv ("Processing group: " ++ g.1)])
        simp only at hrec ⊢
        set st2 := copyRecs stop srcFs dR tot (emit { st with polls := st.polls + 1 }
          [Event.logEv ("Processing group: " ++ g.1)]) g.2 with hst2
        have hrecE : countEv isCompleteEv st2.events = countEv isCompleteEv st.events ∧
            countEv isConfirmEv st2.events = countEv isConfirmEv st.events ∧
            countEv isCopyEv st2.events + st.filesCopied =
              countEv isCopyEv st.events + st2.filesCopied := by
          refine ⟨?_, ?_, ?_⟩
          · rw [hrec.1]
            simp [emit, countEv, List.countP_append, isCompleteEv]
          · rw [hrec.2.1]
            simp [emit, countEv, List.countP_append, isConfirmEv]
          · have := hrec.2.2
            simp only [emit] at this
            simp only [countEv, List.countP_append] at this ⊢
            simp [isCopyEv, List.countP_cons] at this
            omega
        by_cases hp2 : isRun stop st2.polls = true
        · simp only [hp2, if_true]
          have hrest := ih { st2 with polls := st2.polls + 1 }
          simp only at hrest
          refine ⟨by rw [hrest.1]; simpa using hrecE.1,
            by rw [hrest.2.1]; simpa using hrecE.2.1, ?_⟩
          have h1 := hrest.2.2
          have h2 := hrecE.2.2
          simp only at h1
          omega
        · rw [Bool.not_eq_true] at hp2
          simp only [hp2, Bool.false_eq_true, if_false]
          simpa using hrecE
    · rw [Bool.not_eq_true] at hp
      simp only [hp, Bool.false_eq_true, if_false]
      simp

theorem copy_files_counts (stop : Option Nat) (srcFs : Fs)
    (groups : List (String × List Rec)) (dR : String) (tot : Nat) (destFs : Fs)
    (polls : Nat) :
    countEv isCompleteEv (copy_files stop srcFs groups dR tot destFs polls).events = 0 ∧
    countEv isConfirmEv (copy_files stop srcFs groups dR tot destFs polls).events = 0 ∧
    countEv isCopyEv (copy_files stop srcFs groups dR tot destFs polls).events =
      (copy_files stop srcFs groups dR tot destFs polls).filesCopied := by
  have h := copyGroups_counts stop srcFs dR tot groups (initCopySt destFs polls)
  simp only at h
  rw [show (initCopySt destFs polls).events = [] from rfl,
    show (initCopySt destFs polls).filesCopied = 0 from rfl] at h
  simp only [copy_files]
  simp only [countEv, List.countP_nil] at h ⊢
  obtain ⟨h1, h2, h3⟩ := h
  exact ⟨h1, h2, by omega⟩

theorem startActualCopy_counts (stop : Option Nat) (srcFs : Fs)
    (groups : List (String × List Rec)) (dR : String) (tot : Nat) (destFs : Fs)
    (polls : Nat) :
    countEv isCompleteEv (startActualCopy stop srcFs groups dR tot destFs polls) = 1 ∧
    countEv isConfirmEv (startActualCopy stop srcFs groups dR tot destFs polls) = 0 := by
  unfold startActualCopy
  have hc := copy_files_counts stop srcFs groups dR tot destFs (polls + 1)
  by_cases h : isRun stop polls = true
  · simp only [h, Bool.not_true, Bool.false_eq_true, if_false]
    by_cases h2 : isRun stop (copy_files stop srcFs groups dR tot destFs
        (polls + 1)).polls = true
    · simp only [h2, if_true, countEv_append, hc.1, hc.2.1]
      constructor <;> simp [countEv, List.countP_cons, isCompleteEv, isConfirmEv]
    · rw [Bool.not_eq_true] at h2
      simp only [h2, Bool.false_eq_true, if_false, countEv_append, hc.1, hc.2.1]
      constructor <;> simp [countEv, List.countP_cons, isCompleteEv, isConfirmEv]
  · rw [Bool.not_eq_true] at h
    simp only [h, Bool.not_false, if_true]
    constructor <;> simp [countEv, List.countP_cons, isCompleteEv, isConfirmEv]

theorem proceed_with_copy_counts (stop : Option Nat) (srcFs : Fs)
    (groups : List (String × List Rec)) (dR : String) (tot : Nat) (destFs : Fs)
    (polls : Nat) (proceed : Bool) :
    countEv isCompleteEv
      (proceed_with_copy stop srcFs groups dR tot destFs polls proceed) = 1 ∧
    countEv isConfirmEv
      (proceed_with_copy stop srcFs groups dR tot destFs polls proceed) = 0 := by
  unfold proceed_with_copy
  by_cases hp : proceed = true
  · simp only [hp, if_true]
    by_cases h : isRun stop polls = true
    · simp only [h, if_true]
      have hs := startActualCopy_counts stop srcFs groups dR tot destFs (polls + 1)
      constructor
      · show countEv isCompleteEv
          ([Event.logEv "User confirmed copy. Starting copy phase..."] ++
            startActualCopy stop srcFs groups dR tot destFs (polls + 1)) = 1
        rw [countEv_append, hs.1]
        simp [countEv, List.countP_cons, isCompleteEv]
      · show countEv isConfirmEv
          ([Event.logEv "User confirmed copy. Starting copy phase..."] ++
            startActualCopy stop srcFs groups dR tot destFs (polls + 1)) = 0
        rw [countEv_append, hs.2]
        simp [countEv, List.countP_cons, isConfirmEv]
    · rw [Bool.not_eq_true] at h
      simp only [h, Bool.false_eq_true, if_false]
      constructor <;> simp [countEv, List.countP_cons, isCompleteEv, isConfirmEv]
  · rw [Bool.not_eq_true] at hp
    simp only [hp, Bool.false_eq_true, if_false]
    constructor <;> simp [countEv, List.countP_cons, isCompleteEv, isConfirmEv]

theorem summaryEvents_counts (details : List Detail) (p : Event → Bool)
    (hp : ∀ s, p (Event.logEv s) = false) :
    countEv p (summaryEvents details) = 0 := by
  unfold summaryEvents
  by_cases h : details.isEmpty = true
  · simp [h, countEv, List.countP_cons, List.countP_nil, hp]
  · rw [Bool.not_eq_true] at h
    simp only [h, Bool.false_eq_true, if_false]
    simp only [countEv, List.countP_cons, hp]
    have := countEv_map_log (fun d : Detail => d.path)
      (insSort (fun a b => strLe a.path b.path) details) p hp
    simpa [countEv] using this

/-- C2: every terminal path of one whole task invocation emits exactly one
completion event: invalid keywords, stop during search, empty result set,
direct copy (completed or cancelled at any poll), confirmation flow with
either decision, and the injected fatal-error path. -/
theorem C2_single_completion (stop : Option Nat) (forest : List (String × List FTree))
    (srcFs destFs : Fs) (source_folders keywords : List String)
    (destination_folder : String) (proceed fatal : Bool) :
    countEv isCompleteEv (run_file_copy_task stop forest srcFs destFs source_folders
      keywords destination_folder proceed fatal) = 1 := by
  simp only [run_file_copy_task]
  split
  · simp [countEv, List.countP_cons, isCompleteEv]
  · split
    · simp [countEv, List.countP_append, List.countP_cons, isCompleteEv]
    · split
      · simp [countEv, List.countP_append, List.countP_cons, isCompleteEv]
      · split
        · simp only [countEv_append]
          rw [summaryEvents_counts _ isCompleteEv (fun s => rfl)]
          simp [countEv, List.countP_append, List.countP_cons, isCompleteEv]
        · split
          · simp only [countEv_append]
            rw [summaryEvents_counts _ isCompleteEv (fun s => rfl)]
            rw [(proceed_with_copy_counts _ _ _ _ _ _ _ _).1]
            simp [countEv, List.countP_append, List.countP_cons, isCompleteEv]
          · simp only [countEv_append]
            rw [summaryEvents_counts _ isCompleteEv (fun s => rfl)]
            rw [(startActualCopy_counts _ _ _ _ _ _ _).1]
            simp [countEv, List.countP_append, List.countP_cons, isCompleteEv]

theorem confirm_split (A P : List Event) (n : Nat) (l : String) (proceed : Bool)
    (hA1 : countEv isConfirmEv A = 0) (hA2 : countEv isCopyEv A = 0)
    (hP1 : countEv isConfirmEv P = 0)
    (hP2 : proceed = false → countEv isCopyEv P = 0) :
    ∃ pre post, A ++ [Event.logEv l, Event.confirmEv n] ++ P =
        pre ++ Event.confirmEv n :: post ∧
      countEv isConfirmEv pre = 0 ∧ countEv isConfirmEv post = 0 ∧
      countEv isCopyEv pre = 0 ∧
      (proceed = false → countEv isCopyEv post = 0) := by
  refine ⟨A ++ [Event.logEv l], P, by simp, ?_, hP1, ?_, hP2⟩
  · rw [countEv_append, hA1]
    simp [countEv, List.countP_cons, isConfirmEv]
  · rw [countEv_append, hA2]
    simp [countEv, List.countP_cons, isCopyEv]

/-- C7: with the search completed and the keyword sets valid, a result set
of exactly 20 records starts the copy phase directly and emits no
confirmation request; 21 or more records emit exactly one confirmation
request, placed before any physical copy, and with a proceed=false decision
no file is ever copied. -/
theorem C7_confirmation_threshold (stop : Option Nat)
    (forest : List (String × List FTree)) (srcFs destFs : Fs)
    (source_folders keywords : List String) (destination_folder : String)
    (proceed : Bool) (ps : SearchParams) (sres : SearchSt)
    (groups : List (String × List Rec)) (total : Nat)
    (hps : ps = prepParams keywords)
    (hkw : (ps.pattern_keywords.isEmpty && ps.number_keywords.isEmpty) = false)
    (hsres : sres = search_files_for_copy stop source_folders forest
      copyTargetExtensions ps source_folders ⟨[], [], 0⟩)
    (hrun : isRun stop sres.polls = true)
    (hgroups : groups = regroup keywords ps sres.map)
    (htotal : total = totalFound groups) :
    (total = 20 →
      countEv isConfirmEv (run_file_copy_task stop forest srcFs destFs source_folders
        keywords destination_folder proceed false) = 0 ∧
      Event.logEv "Found 20 or fewer files, proceeding directly." ∈
        run_file_copy_task stop forest srcFs destFs source_folders keywords
          destination_folder proceed false) ∧
    (21 ≤ total →
      countEv isConfirmEv (run_file_copy_task stop forest srcFs destFs source_folders
        keywords destination_folder proceed false) = 1 ∧
      ∃ pre post, run_file_copy_task stop forest srcFs destFs source_folders keywords
          destination_folder proceed false = pre ++ Event.confirmEv total :: post ∧
        countEv isConfirmEv pre = 0 ∧ countEv isConfirmEv post = 0 ∧
        countEv isCopyEv pre = 0 ∧
        (proceed = false → countEv isCopyEv post = 0)) := by
  subst hps
  subst hsres
  subst hgroups
  subst htotal
  simp only [run_file_copy_task, Bool.false_eq_true, if_false, hkw, hrun, Bool.not_true]
  constructor
  · intro h20
    rw [h20]
    simp only [Nat.reduceBEq, Bool.false_eq_true, if_false, gt_iff_lt]
    rw [if_neg (by omega)]
    constructor
    · simp only [countEv_append]
      rw [summaryEvents_counts _ isConfirmEv (fun s => rfl)]
      rw [(startActualCopy_counts _ _ _ _ _ _ _).2]
      simp [countEv, List.countP_append, List.countP_cons, isConfirmEv]
    · simp
  · intro h21
    have h0 : (totalFound (regroup keywords (prepParams keywords)
        (search_files_for_copy stop source_folders forest copyTargetExtensions
          (prepParams keywords) source_folders ⟨[], [], 0⟩).map) == 0) = false := by
      rw [beq_eq_false_iff_ne]
      omega
    rw [h0]
    simp only [Bool.false_eq_true, if_false, gt_iff_lt]
    rw [if_pos (by omega)]
    constructor
    · simp only [countEv_append]
      rw [summaryEvents_counts _ isConfirmEv (fun s => rfl)]
      rw [(proceed_with_copy_counts _ _ _ _ _ _ _ _).2]
      simp [countEv, List.countP_append, List.countP_cons, isConfirmEv]
    · apply confirm_split
      · simp only [countEv_append]
        rw [summaryEvents_counts _ isConfirmEv (fun s => rfl)]
        simp [countEv, List.countP_append, List.countP_cons, isConfirmEv]
      · simp only [countEv_append]
        rw [summaryEvents_counts _ isCopyEv (fun s => rfl)]
        simp [countEv, List.countP_append, List.countP_cons, isCopyEv]
      · exact (proceed_with_copy_counts _ _ _ _ _ _ _ _).2
      · intro hpf
        rw [hpf]
        simp [proceed_with_copy, countEv, List.countP_cons, isCopyEv]

set_option maxRecDepth 10000 in
/-- C7 witness: a folder of 20 matching .dxd files copies directly with no
confirmation request, and 21 matching files produce exactly one
confirmation request. -/
theorem C7_confirmation_threshold_witness :
    countEv isConfirmEv (run_file_copy_task none
      [("r", [FTree.dir "1.2.3_a"
        ((List.range 20).map (fun i => FTree.file ("f" ++ toString i ++ ".dxd")))])]
      [] [] ["r"] ["1.2.3"] "d" true false) = 0 ∧
    countEv isConfirmEv (run_file_copy_task none
      [("r", [FTree.dir "1.2.3_a"
        ((List.range 21).map (fun i => FTree.file ("f" ++ toString i ++ ".dxd")))])]
      [] [] ["r"] ["1.2.3"] "d" false false) = 1 :=
  ⟨((C7_confirmation_threshold none
      [("r", [FTree.dir "1.2.3_a"
        ((List.range 20).map (fun i => FTree.file ("f" ++ toString i ++ ".dxd")))])]
      [] [] ["r"] ["1.2.3"] "d" true (prepParams ["1.2.3"])
      (search_files_for_copy none ["r"]
        [("r", [FTree.dir "1.2.3_a"
          ((List.range 20).map (fun i => FTree.file ("f" ++ toString i ++ ".dxd")))])]
        copyTargetExtensions (prepParams ["1.2.3"]) ["r"] ⟨[], [], 0⟩)
      (regroup ["1.2.3"] (prepParams ["1.2.3"])
        (search_files_for_copy none ["r"]
          [("r", [FTree.dir "1.2.3_a"
            ((List.range 20).map (fun i => FTree.file ("f" ++ toString i ++ ".dxd")))])]
          copyTargetExtensions (prepParams ["1.2.3"]) ["r"] ⟨[], [], 0⟩).map)
      20 rfl (by decide) rfl rfl rfl (by decide)).1 rfl).1,
   ((C7_confirmation_threshold none
      [("r", [FTree.dir "1.2.3_a"
        ((List.range 21).map (fun i => FTree.file ("f" ++ toString i ++ ".dxd")))])]
      [] [] ["r"] ["1.2.3"] "d" false (prepParams ["1.2.3"])
      (search_files_for_copy none ["r"]
        [("r", [FTree.dir "1.2.3_a"
          ((List.range 21).map (fun i => FTree.file ("f" ++ toString i ++ ".dxd")))])]
        copyTargetExtensions (prepParams ["1.2.3"]) ["r"] ⟨[], [], 0⟩)
      (regroup ["1.2.3"] (prepParams ["1.2.3"])
        (search_files_for_copy none ["r"]
          [("r", [FTree.dir "1.2.3_a"
            ((List.range 21).map (fun i => FTree.file ("f" ++ toString i ++ ".dxd")))])]
          copyTargetExtensions (prepParams ["1.2.3"]) ["r"] ⟨[], [], 0⟩).map)
      21 rfl (by decide) rfl rfl rfl (by decide)).2 (by omega)).1⟩

/-- C8: when the cancellation flag is cleared during the copy phase, the
run emits exactly one completion event, it reports exactly the number of
files physically copied (the copyEv count of the trace), and it is the last
event of the trace, so no 100-percent progress update follows it.  The
wall-clock duration argument of the completion signal is outside this
model. -/
theorem C8_cancel_mid_copy (stop : Option Nat) (srcFs : Fs)
    (groups : List (String × List Rec)) (dR : String) (tot : Nat) (destFs : Fs)
    (polls : Nat)
    (h1 : isRun stop polls = true)
    (h2 : isRun stop (copy_files stop srcFs groups dR tot destFs (polls + 1)).polls
      = false) :
    ∃ N, startActualCopy stop srcFs groups dR tot destFs polls =
        (copy_files stop srcFs groups dR tot destFs (polls + 1)).events ++
          [Event.logEv "Copy task stopped during copying phase.", Event.completeEv N 0] ∧
      N = countEv isCopyEv (startActualCopy stop srcFs groups dR tot destFs polls) ∧
      countEv isCompleteEv (startActualCopy stop srcFs groups dR tot destFs polls) = 1 ∧
      (startActualCopy stop srcFs groups dR tot destFs polls).getLast? =
        some (Event.completeEv N 0) := by
  have hc := copy_files_counts stop srcFs groups dR tot destFs (polls + 1)
  have hun : startActualCopy stop srcFs groups dR tot destFs polls =
      (copy_files stop srcFs groups dR tot destFs (polls + 1)).events ++
        [Event.logEv "Copy task stopped during copying phase.",
         Event.completeEv (copy_files stop srcFs groups dR tot destFs
           (polls + 1)).filesCopied 0] := by
    unfold startActualCopy
    simp only [h1, Bool.not_true, Bool.false_eq_true, if_false, h2]
  refine ⟨(copy_files stop srcFs groups dR tot destFs (polls + 1)).filesCopied,
    hun, ?_, ?_, ?_⟩
  · rw [hun, countEv_append, hc.2.2]
    simp [countEv, List.countP_cons, isCopyEv]
  · rw [hun, countEv_append, hc.1]
    simp [countEv, List.countP_cons, isCompleteEv]
  · rw [hun]
    rw [show (copy_files stop srcFs groups dR tot destFs (polls + 1)).events ++
        [Event.logEv "Copy task stopped during copying phase.",
         Event.completeEv (copy_files stop srcFs groups dR tot destFs
           (polls + 1)).filesCopied 0] =
        ((copy_files stop srcFs groups dR tot destFs (polls + 1)).events ++
          [Event.logEv "Copy task stopped during copying phase."]) ++
          [Event.completeEv (copy_files stop srcFs groups dR tot destFs
            (polls + 1)).filesCopied 0] by simp]
    rw [List.getLast?_concat]

/-- C8 witness: a schedule stopping after four polls cancels a two-record
copy after the first file; the trace ends with a completion reporting one
copied file. -/
theorem C8_cancel_mid_copy_witness :
    ∃ N, startActualCopy (some 4) [("s/a.x", ⟨"A", true⟩), ("s/b.x", ⟨"B", true⟩)]
        [("k", [⟨"s/a.x", "1.2.3", "d"⟩, ⟨"s/b.x", "1.2.3", "d"⟩])] "o" 2 [] 0 =
        (copy_files (some 4) [("s/a.x", ⟨"A", true⟩), ("s/b.x", ⟨"B", true⟩)]
          [("k", [⟨"s/a.x", "1.2.3", "d"⟩, ⟨"s/b.x", "1.2.3", "d"⟩])] "o" 2 [] 1).events ++
          [Event.logEv "Copy task stopped during copying phase.", Event.completeEv N 0] ∧
      N = countEv isCopyEv (startActualCopy (some 4)
        [("s/a.x", ⟨"A", true⟩), ("s/b.x", ⟨"B", true⟩)]
        [("k", [⟨"s/a.x", "1.2.3", "d"⟩, ⟨"s/b.x", "1.2.3", "d"⟩])] "o" 2 [] 0) ∧
      countEv isCompleteEv (startActualCopy (some 4)
        [("s/a.x", ⟨"A", true⟩), ("s/b.x", ⟨"B", true⟩)]
        [("k", [⟨"s/a.x", "1.2.3", "d"⟩, ⟨"s/b.x", "1.2.3", "d"⟩])] "o" 2 [] 0) = 1 ∧
      (startActualCopy (some 4) [("s/a.x", ⟨"A", true⟩), ("s/b.x", ⟨"B", true⟩)]
        [("k", [⟨"s/a.x", "1.2.3", "d"⟩, ⟨"s/b.x", "1.2.3", "d"⟩])] "o" 2 [] 0).getLast? =
        some (Event.completeEv N 0) :=
  C8_cancel_mid_copy (some 4) [("s/a.x", ⟨"A", true⟩), ("s/b.x", ⟨"B", true⟩)]
    [("k", [⟨"s/a.x", "1.2.3", "d"⟩, ⟨"s/b.x", "1.2.3", "d"⟩])] "o" 2 [] 0
    (by decide) (by decide)

theorem mapAppend_mem (m : List (String × List Rec)) (k : String) (rc : Rec)
    (e : String × List Rec) (he : e ∈ mapAppend m k rc) (r : Rec) (hr : r ∈ e.2) :
    (∃ e2 ∈ m, r ∈ e2.2) ∨ r = rc := by
  induction m generalizing e with
  | nil =>
    simp [mapAppend] at he
    subst he
    simp at hr
    exact Or.inr hr
  | cons e0 m ih =>
    simp only [mapAppend] at he
    by_cases hk : (e0.1 == k) = true
    · simp only [hk, if_true] at he
      rcases List.mem_cons.mp he with he1 | he1
      · subst he1
        simp only at hr
        rcases List.mem_append.mp hr with hr1 | hr1
        · exact Or.inl ⟨e0, List.mem_cons_self _ _, hr1⟩
        · simp at hr1
          exact Or.inr hr1
      · exact Or.inl ⟨e, List.mem_cons_of_mem _ he1, hr⟩
    · rw [Bool.not_eq_true] at hk
      simp only [hk, Bool.false_eq_true, if_false] at he
      rcases List.mem_cons.mp he with he1 | he1
      · subst he1
        exact Or.inl ⟨e, List.mem_cons_self _ _, hr⟩
      · rcases ih e he1 hr with ⟨e2, he2, hr2⟩ | h
        · exact Or.inl ⟨e2, List.mem_cons_of_mem _ he2, hr2⟩
        · exact Or.inr h

theorem searchFileStep_lfInv (source_roots exts : List String) (ps : SearchParams)
    (dirPath : String) (ctx : Option String) (name : String) (st : SearchSt)
    (h : searchLFInv source_roots st) :
    searchLFInv source_roots (searchFileStep source_roots exts ps dirPath ctx name st) := by
  unfold searchFileStep
  cases hm : matchFile exts ps ctx name with
  | none => exact h
  | some kn =>
    constructor
    · intro d hd
      simp only at hd
      rcases List.mem_append.mp hd with hd1 | hd1
      · exact h.1 d hd1
      · simp at hd1
        subst hd1
        rfl
    · intro e he r hr
      simp only at he
      rcases mapAppend_mem st.map kn.1 ⟨joinPath dirPath name, kn.2,
          computeLastFolder source_roots (joinPath dirPath name)⟩ e he r hr with
        ⟨e2, he2, hr2⟩ | hrc
      · exact h.2 e2 he2 r hr2
      · subst hrc
        rfl

theorem searchEntry_lfInv (stop : Option Nat) (source_roots exts : List String)
    (ps : SearchParams) :
    ∀ (dirPath : String) (ctx : Option String) (t : FTree) (st : SearchSt),
      searchLFInv source_roots st →
      searchLFInv source_roots (searchEntry stop source_roots exts ps dirPath ctx t st) := by
  apply searchEntry.induct stop source_roots exts ps
    (motive_1 := fun dirPath ctx t st =>
      searchLFInv source_roots st →
      searchLFInv source_roots (searchEntry stop source_roots exts ps dirPath ctx t st))
    (motive_2 := fun dirPath ctx ts st =>
      searchLFInv source_roots st →
      searchLFInv source_roots (searchEntries stop source_roots exts ps dirPath ctx ts st))
  · intro dirPath ctx name st h
    simp only [searchEntry]
    exact searchFileStep_lfInv source_roots exts ps dirPath ctx name st h
  · intro dirPath ctx name children st p hp h
    simp only [searchEntry, hp, if_true]
    exact h
  · intro dirPath ctx name children st subPath p hp hroot h
    rw [searchEntry]
    simp only [hroot]
    split
    · exact h
    · exact h
  · intro dirPath ctx name children st subPath p hp k hroot ih h
    rw [searchEntry]
    simp only [hroot]
    split
    · exact h
    · exact ih h
  · intro dirPath ctx st h
    simp only [searchEntries]
    exact h
  · intro dirPath ctx t ts st p hp h
    simp only [searchEntries, hp, if_true]
    exact h
  · intro dirPath ctx t ts st p hp ih1 ih2 h
    rw [searchEntries]
    split
    · exact h
    · exact ih2 (ih1 h)

theorem searchEntries_lfInv (stop : Option Nat) (source_roots exts : List String)
    (ps : SearchParams) (dirPath : String) (ctx : Option String) (ts : List FTree)
    (st : SearchSt) (h : searchLFInv source_roots st) :
    searchLFInv source_roots (searchEntries stop source_roots exts ps dirPath ctx ts st) := by
  induction ts generalizing st with
  | nil => simpa [searchEntries] using h
  | cons t ts ih =>
    rw [searchEntries]
    split
    · exact h
    · exact ih _ (searchEntry_lfInv stop source_roots exts ps dirPath ctx t _ h)

theorem search_cons (stop : Option Nat) (source_roots : List String)
    (forest : List (String × List FTree)) (exts : List String) (ps : SearchParams)
    (d : String) (ds : List String) (st : SearchSt) :
    search_files_for_copy stop source_roots forest exts ps (d :: ds) st =
      (if isRun stop st.polls = true then
        (match findOwnerRoot source_roots d with
         | none => search_files_for_copy stop source_roots forest exts ps ds
             { st with polls := st.polls + 1 }
         | some _ =>
           match lookupForest forest d with
           | none => search_files_for_copy stop source_roots forest exts ps ds
               { st with polls := st.polls + 1 }
           | some entries =>
             (let st2 := searchEntries stop source_roots exts ps d (folderCtx ps d)
                entries { st with polls := st.polls + 1 }
              if isRun stop st2.polls = true then
                search_files_for_copy stop source_roots forest exts ps ds
                  { st2 with polls := st2.polls + 1 }
              else { st2 with polls := st2.polls + 1 }))
       else { st with polls := st.polls + 1 }) := by
  by_cases h : isRun stop st.polls = true
  · cases hroot : findOwnerRoot source_roots d with
    | none => simp [search_files_for_copy, spoll, h, hroot]
    | some k =>
      cases hent : lookupForest forest d with
      | none => simp [search_files_for_copy, spoll, h, hroot, hent]
      | some entries =>
        by_cases h2 : isRun stop (searchEntries stop source_roots exts ps d
            (folderCtx ps d) entries { st with polls := st.polls + 1 }).polls = true <;>
          simp [search_files_for_copy, spoll, h, hroot, hent, h2]
  · rw [Bool.not_eq_true] at h
    simp [search_files_for_copy, spoll, h]

theorem search_files_for_copy_lfInv (stop : Option Nat) (source_roots : List String)
    (forest : List (String × List FTree)) (exts : List String) (ps : SearchParams)
    (dirs : List String) (st : SearchSt) (h : searchLFInv source_roots st) :
    searchLFInv source_roots
      (search_files_for_copy stop source_roots forest exts ps dirs st) := by
  induction dirs generalizing st with
  | nil => simpa [search_files_for_copy] using h
  | cons d ds ih =>
    rw [search_cons]
    split
    · split
      · exact ih _ h
      · split
        · exact ih _ h
        · simp only
          split
          · exact ih _ (searchEntries_lfInv stop source_roots exts ps d (folderCtx ps d)
              _ _ h)
          · exact searchEntries_lfInv stop source_roots exts ps d (folderCtx ps d) _ _ h
    · exact h

/-- C6: for every match record of a search, the last_folder_name is empty
exactly when the parent directory of the file is one of the declared source
roots, and otherwise it is the base name of the immediate parent folder
only; the copy phase then places the record directly under the destination
root or under destinationRoot/lastFolderName respectively. -/
theorem C6_destination_folder (stop : Option Nat) (source_roots : List String)
    (forest : List (String × List FTree)) (exts : List String) (ps : SearchParams)
    (dirs : List String) (dR : String) :
    (∀ d ∈ (search_files_for_copy stop source_roots forest exts ps dirs
        ⟨[], [], 0⟩).details,
      (source_roots.any (fun r => dirname d.path == r) = true →
        d.lastFolder = "" ∧ finalDestFolder dR d.lastFolder = dR) ∧
      (source_roots.any (fun r => dirname d.path == r) = false →
        basename (dirname d.path) ≠ "" →
        d.lastFolder = basename (dirname d.path) ∧
        finalDestFolder dR d.lastFolder = joinPath dR (basename (dirname d.path)))) ∧
    (∀ e ∈ (search_files_for_copy stop source_roots forest exts ps dirs
        ⟨[], [], 0⟩).map, ∀ r ∈ e.2,
      (source_roots.any (fun rt => dirname r.src == rt) = true →
        r.lastFolder = "" ∧ finalDestFolder dR r.lastFolder = dR) ∧
      (source_roots.any (fun rt => dirname r.src == rt) = false →
        basename (dirname r.src) ≠ "" →
        r.lastFolder = basename (dirname r.src) ∧
        finalDestFolder dR r.lastFolder = joinPath dR (basename (dirname r.src)))) := by
  have hbase : searchLFInv source_roots ⟨[], [], 0⟩ := by
    constructor
    · intro d hd
      cases hd
    · intro e he
      cases he
  have hInv := search_files_for_copy_lfInv stop source_roots forest exts ps dirs
    ⟨[], [], 0⟩ hbase
  have key : ∀ (p lf : String), lf = computeLastFolder source_roots p →
      (source_roots.any (fun r => dirname p == r) = true →
        lf = "" ∧ finalDestFolder dR lf = dR) ∧
      (source_roots.any (fun r => dirname p == r) = false →
        basename (dirname p) ≠ "" →
        lf = basename (dirname p) ∧
        finalDestFolder dR lf = joinPath dR (basename (dirname p))) := by
    intro p lf hlf
    subst hlf
    unfold computeLastFolder
    constructor
    · intro hany
      simp [hany, finalDestFolder]
    · intro hany hbn
      have hbn2 : (basename (dirname p) == "") = false := by simp [hbn]
      simp [hany, hbn2, finalDestFolder]
      intro h
      exact absurd h hbn
  constructor
  · intro d hd
    exact key d.path d.lastFolder (hInv.1 d hd)
  · intro e he r hr
    exact key r.src r.lastFolder (hInv.2 e he r hr)

/-- C6 witness: a file directly in the source root lands under the
destination root; a file in root/5.4.4_batch lands under
destination/5.4.4_batch. -/
theorem C6_destination_folder_witness :
    (("5.4.4_batch" : String) = basename (dirname "root/5.4.4_batch/data.dxd") ∧
      finalDestFolder "dest" "5.4.4_batch" =
        joinPath "dest" (basename (dirname "root/5.4.4_batch/data.dxd"))) ∧
    (("" : String) = "" ∧ finalDestFolder "dest" "" = "dest") := by
  have H := C6_destination_folder none ["root"]
    [("root", [FTree.dir "5.4.4_batch" [FTree.file "report_of.xlsx", FTree.file "data.dxd"],
       FTree.file "top_5.4.4_of.xlsx"])]
    copyTargetExtensions { pattern_keywords := ["of"], number_keywords := ["5.4.4"] }
    ["root"] "dest"
  constructor
  · exact (H.1 ⟨"root/5.4.4_batch/data.dxd", "5.4.4", ".dxd", "5.4.4", "5.4.4_batch"⟩
      (by decide)).2 (by decide) (by decide)
  · exact (H.1 ⟨"root/top_5.4.4_of.xlsx", "of", ".xlsx", "5.4.4", ""⟩
      (by decide)).1 (by decide)

theorem step_hash_none (srcFs : Fs) (dR : String) (tot : Nat) (st : CopySt) (r : Rec)
    (h : get_file_hash srcFs r.src true = none) :
    (let st1 := (processRecord none srcFs dR tot st r).1
    st1.fs = st.fs ∧ st1.ledger = st.ledger ∧ st1.copies = st.copies ∧
    st1.renames = st.renames ∧ st1.filesCopied = st.filesCopied) := by
  cases hs : lookupFs srcFs r.src with
  | none => exact step_src_missing srcFs dR tot st r hs
  | some sfd =>
    cases hok : sfd.hashOk with
    | false => exact step_hash_failed srcFs dR tot st r sfd hs hok
    | true =>
      exfalso
      rw [get_file_hash, hs] at h
      simp [hok] at h

/-- Exhaustive case analysis of one uncancelled inner-loop step: skip with
unreadable source, skip as ledger duplicate, skip as identical at the
destination, fresh copy, or rename. -/
theorem step_none_cases (srcFs : Fs) (dR : String) (tot : Nat) (st : CopySt) (r : Rec) :
    (let st1 := (processRecord none srcFs dR tot st r).1
    (get_file_hash srcFs r.src true = none ∧
      st1.fs = st.fs ∧ st1.ledger = st.ledger ∧ st1.copies = st.copies ∧
      st1.renames = st.renames ∧ st1.filesCopied = st.filesCopied) ∨
    (∃ hv, get_file_hash srcFs r.src true = some hv ∧
      ledgerHas st.ledger hv = true ∧
      st1.fs = st.fs ∧ st1.ledger = st.ledger ∧ st1.copies = st.copies ∧
      st1.renames = st.renames ∧ st1.filesCopied = st.filesCopied) ∨
    (∃ hv dfd, get_file_hash srcFs r.src true = some hv ∧
      ledgerHas st.ledger hv = false ∧
      lookupFs st.fs (destPathOf dR r) = some dfd ∧ dfd.hashOk = true ∧
      dfd.content = hv ∧
      st1.fs = st.fs ∧ st1.ledger = (hv, destPathOf dR r) :: st.ledger ∧
      st1.copies = st.copies ∧ st1.renames = st.renames ∧
      st1.filesCopied = st.filesCopied) ∨
    (∃ hv, get_file_hash srcFs r.src true = some hv ∧
      ledgerHas st.ledger hv = false ∧
      lookupFs st.fs (destPathOf dR r) = none ∧
      st1.fs = (destPathOf dR r, ⟨hv, true⟩) :: st.fs ∧
      st1.ledger = (hv, destPathOf dR r) :: st.ledger ∧
      st1.renames = st.renames ∧ st1.filesCopied = st.filesCopied + 1) ∨
    st1.renames = st.renames + 1) := by
  cases hs : lookupFs srcFs r.src with
  | none =>
    left
    exact ⟨by rw [get_file_hash, hs], step_src_missing srcFs dR tot st r hs⟩
  | some sfd =>
    cases hok : sfd.hashOk with
    | false =>
      left
      exact ⟨by rw [get_file_hash, hs]; simp [hok],
        step_hash_failed srcFs dR tot st r sfd hs hok⟩
    | true =>
      have hhash : get_file_hash srcFs r.src true = some sfd.content := by
        rw [get_file_hash, hs]
        simp [hok]
      by_cases hl : ledgerHas st.ledger sfd.content = true
      · right; left
        exact ⟨sfd.content, hhash, hl, step_dup srcFs dR tot st r sfd.content hhash hl⟩
      · rw [Bool.not_eq_true] at hl
        cases hd : lookupFs st.fs (destPathOf dR r) with
        | none =>
          right; right; right; left
          have hstep := step_fresh srcFs dR tot st r sfd.content hhash hl hd
          exact ⟨sfd.content, hhash, hl, rfl, hstep.1, hstep.2.1, hstep.2.2.2.1,
            hstep.2.2.2.2⟩
        | some dfd =>
          by_cases hid : dfd.hashOk = true ∧ dfd.content = sfd.content
          · right; right; left
            have hstep := step_identical srcFs dR tot st r sfd.content dfd hhash hl hd
              hid.1 hid.2
            exact ⟨sfd.content, dfd, hhash, hl, rfl, hid.1, hid.2, hstep.1, hstep.2.1,
              hstep.2.2.1, hstep.2.2.2.1, hstep.2.2.2.2⟩
          · right; right; right; right
            have hconf : dfd.hashOk = false ∨ dfd.content ≠ sfd.content := by
              by_cases h1 : dfd.hashOk = true
              · exact Or.inr (fun h2 => hid ⟨h1, h2⟩)
              · rw [Bool.not_eq_true] at h1
                exact Or.inl h1
            have hstep := step_conflict srcFs dR tot st r sfd.content dfd hhash hl hd hconf
            exact hstep.2.2.2.1

theorem step_renames_mono (srcFs : Fs) (dR : String) (tot : Nat) (st : CopySt) (r : Rec) :
    st.renames ≤ (processRecord none srcFs dR tot st r).1.renames := by
  have h := step_none_cases srcFs dR tot st r
  simp only at h
  rcases h with ⟨_, _, _, _, h, _⟩ | ⟨hv, _, _, _, _, _, h, _⟩ |
    ⟨hv, dfd, _, _, _, _, _, _, _, _, h, _⟩ | ⟨hv, _, _, _, _, _, h, _⟩ | h <;> omega

theorem copyRecs_renames_mono (srcFs : Fs) (dR : String) (tot : Nat) (rs : List Rec)
    (st : CopySt) : st.renames ≤ (copyRecs none srcFs dR tot st rs).renames := by
  induction rs generalizing st with
  | nil => simp [copyRecs]
  | cons r rs ih =>
    rw [copyRecs_none_cons]
    calc st.renames ≤ (processRecord none srcFs dR tot
        { st with polls := st.polls + 1 } r).1.renames :=
          step_renames_mono srcFs dR tot { st with polls := st.polls + 1 } r
      _ ≤ _ := ih _

/-- With no cancellation the outer loop just iterates the inner loop. -/
theorem copyGroups_none_cons (srcFs : Fs) (dR : String) (tot : Nat) (st : CopySt)
    (g : String × List Rec) (gs : List (String × List Rec)) :
    copyGroups none srcFs dR tot st (g :: gs) =
      (if g.2.isEmpty = true then copyGroups none srcFs dR tot
        { st with polls := st.polls + 1 } gs
       else
         (let st2 := copyRecs none srcFs dR tot
            (emit { st with polls := st.polls + 1 }
              [Event.logEv ("Processing group: " ++ g.1)]) g.2
          copyGroups none srcFs dR tot { st2 with polls := st2.polls + 1 } gs)) := by
  rw [copyGroups_cons]
  simp [isRun]

theorem copyGroups_renames_mono (srcFs : Fs) (dR : String) (tot : Nat)
    (gs : List (String × List Rec)) (st : CopySt) :
    st.renames ≤ (copyGroups none srcFs dR tot st gs).renames := by
  induction gs generalizing st with
  | nil => simp [copyGroups]
  | cons g gs ih =>
    rw [copyGroups_none_cons]
    by_cases hg : g.2.isEmpty = true
    · simp only [hg, if_true]
      exact ih { st with polls := st.polls + 1 }
    · rw [Bool.not_eq_true] at hg
      simp only [hg, Bool.false_eq_true, if_false]
      refine le_trans ?_ (ih _)
      have := copyRecs_renames_mono srcFs dR tot g.2
        (emit { st with polls := st.polls + 1 }
          [Event.logEv ("Processing group: " ++ g.1)])
      simpa [emit] using this

theorem step_fs_preserve (srcFs : Fs) (dR : String) (tot : Nat) (st : CopySt) (r : Rec)
    (hren : (processRecord none srcFs dR tot st r).1.renames = st.renames)
    (p : String) (v : FileData) (hv : lookupFs st.fs p = some v) :
    lookupFs (processRecord none srcFs dR tot st r).1.fs p = some v := by
  have h := step_none_cases srcFs dR tot st r
  simp only at h
  rcases h with ⟨_, hfs, _⟩ | ⟨_, _, _, hfs, _⟩ | ⟨_, _, _, _, _, _, _, hfs, _⟩ |
    ⟨hv2, _, _, hdnone, hfs, _⟩ | hr1
  · rw [hfs]; exact hv
  · rw [hfs]; exact hv
  · rw [hfs]; exact hv
  · rw [hfs, lookupFs_cons]
    by_cases hdp : (destPathOf dR r == p) = true
    · exfalso
      have hdpe : destPathOf dR r = p := by simpa using hdp
      rw [hdpe, hv] at hdnone
      cases hdnone
    · rw [Bool.not_eq_true] at hdp
      rw [hdp]
      simpa using hv
  · omega

theorem copyRecs_fs_preserve (srcFs : Fs) (dR : String) (tot : Nat) (rs : List Rec)
    (st : CopySt) (hren : (copyRecs none srcFs dR tot st rs).renames = st.renames)
    (p : String) (v : FileData) (hv : lookupFs st.fs p = some v) :
    lookupFs (copyRecs none srcFs dR tot st rs).fs p = some v := by
  induction rs generalizing st with
  | nil => simpa [copyRecs] using hv
  | cons r rs ih =>
    rw [copyRecs_none_cons] at hren ⊢
    have m1 := step_renames_mono srcFs dR tot { st with polls := st.polls + 1 } r
    have m2 := copyRecs_renames_mono srcFs dR tot rs
      (processRecord none srcFs dR tot { st with polls := st.polls + 1 } r).1
    simp only at m1
    have hstep_eq : (processRecord none srcFs dR tot
        { st with polls := st.polls + 1 } r).1.renames = st.renames := by omega
    have hrest_eq : (copyRecs none srcFs dR tot
        (processRecord none srcFs dR tot { st with polls := st.polls + 1 } r).1
        rs).renames =
        (processRecord none srcFs dR tot
          { st with polls := st.polls + 1 } r).1.renames := by omega
    exact ih _ hrest_eq (step_fs_preserve srcFs dR tot { st with polls := st.polls + 1 }
      r hstep_eq p v hv)

theorem copyGroups_fs_preserve (srcFs : Fs) (dR : String) (tot : Nat)
    (gs : List (String × List Rec)) (st : CopySt)
    (hren : (copyGroups none srcFs dR tot st gs).renames = st.renames)
    (p : String) (v : FileData) (hv : lookupFs st.fs p = some v) :
    lookupFs (copyGroups none srcFs dR tot st gs).fs p = some v := by
  induction gs generalizing st with
  | nil => simpa [copyGroups] using hv
  | cons g gs ih =>
    rw [copyGroups_none_cons] at hren ⊢
    by_cases hg : g.2.isEmpty = true
    · simp only [hg, if_true] at hren ⊢
      exact ih { st with polls := st.polls + 1 } hren hv
    · rw [Bool.not_eq_true] at hg
      simp only [hg, Bool.false_eq_true, if_false] at hren ⊢
      set stE := emit { st with polls := st.polls + 1 }
        [Event.logEv ("Processing group: " ++ g.1)] with hstE
      set st2 := copyRecs none srcFs dR tot stE g.2 with hst2
      have m1 : st.renames ≤ st2.renames := by
        have := copyRecs_renames_mono srcFs dR tot g.2 stE
        simpa [hstE, emit] using this
      have m2 : st2.renames ≤ (copyGroups none srcFs dR tot
          { st2 with polls := st2.polls + 1 } gs).renames := by
        have := copyGroups_renames_mono srcFs dR tot gs
          { st2 with polls := st2.polls + 1 }
        simpa using this
      have hrecs_eq : st2.renames = st.renames := by omega
      have hrest_eq : (copyGroups none srcFs dR tot
          { st2 with polls := st2.polls + 1 } gs).renames =
          ({ st2 with polls := st2.polls + 1 } : CopySt).renames := by
        simp only [CopySt.renames]
        omega
      have hv2 : lookupFs st2.fs p = some v := by
        rw [hst2]
        apply copyRecs_fs_preserve srcFs dR tot g.2 stE ?_ p v ?_
        · rw [← hst2]
          have hse : stE.renames = st.renames := by simp [hstE, emit]
          omega
        · simpa [hstE, emit] using hv
      exact ih { st2 with polls := st2.polls + 1 } hrest_eq (by simpa using hv2)

theorem ledger_cons_mono (L1 L2 : List (String × String)) (a : String × String)
    (h : ∀ x, ledgerHas L1 x = true → ledgerHas L2 x = true) :
    ∀ x, ledgerHas (a :: L1) x = true → ledgerHas (a :: L2) x = true := by
  intro x hx
  rw [ledgerHas_cons] at hx ⊢
  rcases Bool.or_eq_true_iff.mp hx with h1 | h1
  · rw [h1]
    simp
  · rw [h x h1]
    simp

theorem ledger_cons_of_has (L1 L2 : List (String × String)) (hv p : String)
    (hmem : ledgerHas L2 hv = true)
    (h : ∀ x, ledgerHas L1 x = true → ledgerHas L2 x = true) :
    ∀ x, ledgerHas ((hv, p) :: L1) x = true → ledgerHas L2 x = true := by
  intro x hx
  rw [ledgerHas_cons] at hx
  rcases Bool.or_eq_true_iff.mp hx with h1 | h1
  · have : hv = x := by simpa using h1
    rw [← this]
    exact hmem
  · exact h x h1

/-- Replaying one rename-free inner-loop step of the first run against the
final destination tree D of that run: the second run skips the record,
changes nothing, and its ledger keeps dominating the first-run ledger. -/
theorem twoRun_step (srcFs : Fs) (dR : String) (tot : Nat) (D : Fs)
    (st1 st2 : CopySt) (r : Rec)
    (hstep1 : (processRecord none srcFs dR tot st1 r).1.renames = st1.renames)
    (hDA : ∀ p v, lookupFs (processRecord none srcFs dR tot st1 r).1.fs p = some v →
      lookupFs D p = some v)
    (hL : ∀ x, ledgerHas st1.ledger x = true → ledgerHas st2.ledger x = true)
    (hfs : st2.fs = D) :
    (processRecord none srcFs dR tot st2 r).1.fs = D ∧
    (processRecord none srcFs dR tot st2 r).1.filesCopied = st2.filesCopied ∧
    (processRecord none srcFs dR tot st2 r).1.renames = st2.renames ∧
    (∀ x, ledgerHas (processRecord none srcFs dR tot st1 r).1.ledger x = true →
      ledgerHas (processRecord none srcFs dR tot st2 r).1.ledger x = true) := by
  have hcase := step_none_cases srcFs dR tot st1 r
  simp only at hcase
  rcases hcase with ⟨hhash, hfsA, hledA, _, _, _⟩ |
    ⟨hv, hhash, hlh, hfsA, hledA, _, _, _⟩ |
    ⟨hv, dfd, hhash, hlf, hdl, hdok, hdc, hfsA, hledA, _, _, _⟩ |
    ⟨hv, hhash, hlf, hdnone, hfsA, hledA, _, _⟩ | hrenA
  · have hB := step_hash_none srcFs dR tot st2 r hhash
    simp only at hB
    obtain ⟨hfsB, hledB, _, hrenB, hfcB⟩ := hB
    rw [hfsB, hledB, hledA, hrenB, hfcB]
    exact ⟨hfs, rfl, rfl, hL⟩
  · have hlh2 := hL hv hlh
    have hB := step_dup srcFs dR tot st2 r hv hhash hlh2
    simp only at hB
    obtain ⟨hfsB, hledB, _, hrenB, hfcB⟩ := hB
    rw [hfsB, hledB, hledA, hrenB, hfcB]
    exact ⟨hfs, rfl, rfl, hL⟩
  · have hDdp : lookupFs D (destPathOf dR r) = some dfd := by
      apply hDA
      rw [hfsA]
      exact hdl
    by_cases hl2 : ledgerHas st2.ledger hv = true
    · have hB := step_dup srcFs dR tot st2 r hv hhash hl2
      simp only at hB
      obtain ⟨hfsB, hledB, _, hrenB, hfcB⟩ := hB
      rw [hfsB, hledB, hledA, hrenB, hfcB]
      exact ⟨hfs, rfl, rfl,
        ledger_cons_of_has st1.ledger st2.ledger hv (destPathOf dR r) hl2 hL⟩
    · rw [Bool.not_eq_true] at hl2
      have hdl2 : lookupFs st2.fs (destPathOf dR r) = some dfd := by
        rw [hfs]
        exact hDdp
      have hB := step_identical srcFs dR tot st2 r hv dfd hhash hl2 hdl2 hdok hdc
      simp only at hB
      obtain ⟨hfsB, hledB, _, hrenB, hfcB⟩ := hB
      rw [hfsB, hledB, hledA, hrenB, hfcB]
      exact ⟨hfs, rfl, rfl,
        ledger_cons_mono st1.ledger st2.ledger (hv, destPathOf dR r) hL⟩
  · have hDdp : lookupFs D (destPathOf dR r) = some ⟨hv, true⟩ := by
      apply hDA
      rw [hfsA, lookupFs_cons]
      simp
    by_cases hl2 : ledgerHas st2.ledger hv = true
    · have hB := step_dup srcFs dR tot st2 r hv hhash hl2
      simp only at hB
      obtain ⟨hfsB, hledB, _, hrenB, hfcB⟩ := hB
      rw [hfsB, hledB, hledA, hrenB, hfcB]
      exact ⟨hfs, rfl, rfl,
        ledger_cons_of_has st1.ledger st2.ledger hv (destPathOf dR r) hl2 hL⟩
    · rw [Bool.not_eq_true] at hl2
      have hdl2 : lookupFs st2.fs (destPathOf dR r) = some ⟨hv, true⟩ := by
        rw [hfs]
        exact hDdp
      have hB := step_identical srcFs dR tot st2 r hv ⟨hv, true⟩ hhash hl2 hdl2 rfl rfl
      simp only at hB
      obtain ⟨hfsB, hledB, _, hrenB, hfcB⟩ := hB
      rw [hfsB, hledB, hledA, hrenB, hfcB]
      exact ⟨hfs, rfl, rfl,
        ledger_cons_mono st1.ledger st2.ledger (hv, destPathOf dR r) hL⟩
  · exfalso
    omega

/-- Replaying the inner loop over the final destination tree D of a
rename-free first run: nothing is copied, nothing is renamed, the tree is
unchanged, and the second-run ledger dominates the first-run ledger. -/
theorem twoRun_recs (srcFs : Fs) (dR : String) (tot : Nat) (D : Fs) (rs : List Rec) :
    ∀ (st1 st2 : CopySt),
    (copyRecs none srcFs dR tot st1 rs).renames = st1.renames →
    (∀ p v, lookupFs (copyRecs none srcFs dR tot st1 rs).fs p = some v →
      lookupFs D p = some v) →
    (∀ x, ledgerHas st1.ledger x = true → ledgerHas st2.ledger x = true) →
    st2.fs = D →
    (copyRecs none srcFs dR tot st2 rs).fs = D ∧
    (copyRecs none srcFs dR tot st2 rs).filesCopied = st2.filesCopied ∧
    (copyRecs none srcFs dR tot st2 rs).renames = st2.renames ∧
    (∀ x, ledgerHas (copyRecs none srcFs dR tot st1 rs).ledger x = true →
      ledgerHas (copyRecs none srcFs dR tot st2 rs).ledger x = true) := by
  induction rs with
  | nil =>
    intro st1 st2 _ hD hL hfs
    exact ⟨hfs, rfl, rfl, hL⟩
  | cons r rs ih =>
    intro st1 st2 hren hD hL hfs
    rw [copyRecs_none_cons] at hren hD ⊢
    rw [copyRecs_none_cons srcFs dR tot st1]
    have m1 := step_renames_mono srcFs dR tot { st1 with polls := st1.polls + 1 } r
    have m2 := copyRecs_renames_mono srcFs dR tot rs
      (processRecord none srcFs dR tot { st1 with polls := st1.polls + 1 } r).1
    simp only at m1
    have hstep1 : (processRecord none srcFs dR tot
        { st1 with polls := st1.polls + 1 } r).1.renames =
        ({ st1 with polls := st1.polls + 1 } : CopySt).renames := by
      simp only [CopySt.renames]
      omega
    have hrest1 : (copyRecs none srcFs dR tot
        (processRecord none srcFs dR tot { st1 with polls := st1.polls + 1 } r).1
        rs).renames =
        (processRecord none srcFs dR tot
          { st1 with polls := st1.polls + 1 } r).1.renames := by omega
    have hDA : ∀ p v, lookupFs (processRecord none srcFs dR tot
        { st1 with polls := st1.polls + 1 } r).1.fs p = some v →
        lookupFs D p = some v := by
      intro p v hpv
      apply hD
      exact copyRecs_fs_preserve srcFs dR tot rs _ (by rw [hrest1]) p v hpv
    have hB := twoRun_step srcFs dR tot D { st1 with polls := st1.polls + 1 }
      { st2 with polls := st2.polls + 1 } r hstep1 hDA hL hfs
    obtain ⟨hfsB, hfcB, hrenB, hLB⟩ := hB
    have hIH := ih (processRecord none srcFs dR tot
        { st1 with polls := st1.polls + 1 } r).1
      (processRecord none srcFs dR tot { st2 with polls := st2.polls + 1 } r).1
      hrest1 hD hLB hfsB
    refine ⟨hIH.1, ?_, ?_, hIH.2.2.2⟩
    · rw [hIH.2.1]
      exact hfcB
    · rw [hIH.2.2.1]
      exact hrenB

/-- Replaying the outer group loop over the final destination tree D of a
rename-free first run: the second run copies nothing, renames nothing,
leaves the tree unchanged, and its ledger dominates the first-run ledger. -/
theorem twoRun_groups (srcFs : Fs) (dR : String) (tot : Nat) (D : Fs)
    (gs : List (String × List Rec)) :
    ∀ (st1 st2 : CopySt),
    (copyGroups none srcFs dR tot st1 gs).renames = st1.renames →
    (∀ p v, lookupFs (copyGroups none srcFs dR tot st1 gs).fs p = some v →
      lookupFs D p = some v) →
    (∀ x, ledgerHas st1.ledger x = true → ledgerHas st2.ledger x = true) →
    st2.fs = D →
    (copyGroups none srcFs dR tot st2 gs).fs = D ∧
    (copyGroups none srcFs dR tot st2 gs).filesCopied = st2.filesCopied ∧
    (copyGroups none srcFs dR tot st2 gs).renames = st2.renames ∧
    (∀ x, ledgerHas (copyGroups none srcFs dR tot st1 gs).ledger x = true →
      ledgerHas (copyGroups none srcFs dR tot st2 gs).ledger x = true) := by
  induction gs with
  | nil =>
    intro st1 st2 _ hD hL hfs
    exact ⟨hfs, rfl, rfl, hL⟩
  | cons g gs ih =>
    intro st1 st2 hren hD hL hfs
    rw [copyGroups_none_cons] at hren hD ⊢
    rw [copyGroups_none_cons srcFs dR tot st1]
    by_cases hg : g.2.isEmpty = true
    · simp only [hg, if_true] at hren hD ⊢
      exact ih { st1 with polls := st1.polls + 1 } { st2 with polls := st2.polls + 1 }
        hren hD hL hfs
    · rw [Bool.not_eq_true] at hg
      simp only [hg, Bool.false_eq_true, if_false] at hren hD ⊢
      set stE1 := emit { st1 with polls := st1.polls + 1 }
        [Event.logEv ("Processing group: " ++ g.1)] with hstE1
      set stR1 := copyRecs none srcFs dR tot stE1 g.2 with hstR1
      set stE2 := emit { st2 with polls := st2.polls + 1 }
        [Event.logEv ("Processing group: " ++ g.1)] with hstE2
      set stR2 := copyRecs none srcFs dR tot stE2 g.2 with hstR2
      have m1 : st1.renames ≤ stR1.renames := by
        have := copyRecs_renames_mono srcFs dR tot g.2 stE1
        simpa [hstE1, emit] using this
      have m2 : stR1.renames ≤ (copyGroups none srcFs dR tot
          { stR1 with polls := stR1.polls + 1 } gs).renames := by
        have := copyGroups_renames_mono srcFs dR tot gs
          { stR1 with polls := stR1.polls + 1 }
        simpa using this
      have hE1 : stE1.renames = st1.renames := by
        rw [hstE1]
        simp [emit]
      have hrecs1 : stR1.renames = stE1.renames := by omega
      have hrest1 : (copyGroups none srcFs dR tot
          { stR1 with polls := stR1.polls + 1 } gs).renames =
          ({ stR1 with polls := stR1.polls + 1 } : CopySt).renames := by
        simp only [CopySt.renames]
        omega
      have hDA : ∀ p v, lookupFs stR1.fs p = some v → lookupFs D p = some v := by
        intro p v hpv
        apply hD
        exact copyGroups_fs_preserve srcFs dR tot gs _ hrest1 p v hpv
      have hLE : ∀ x, ledgerHas stE1.ledger x = true → ledgerHas stE2.ledger x = true := by
        simpa [hstE1, hstE2, emit] using hL
      have hfsE : stE2.fs = D := by
        rw [hstE2]
        simpa [emit] using hfs
      have hB := twoRun_recs srcFs dR tot D g.2 stE1 stE2 hrecs1 hDA hLE hfsE
      obtain ⟨hfsB, hfcB, hrenB, hLB⟩ := hB
      have hIH := ih { stR1 with polls := stR1.polls + 1 }
        { stR2 with polls := stR2.polls + 1 } hrest1 hD hLB hfsB
      refine ⟨hIH.1, ?_, ?_, hIH.2.2.2⟩
      · rw [hIH.2.1]
        have hE2 : stE2.filesCopied = st2.filesCopied := by
          rw [hstE2]
          simp [emit]
        rw [← hE2]
        exact hfcB
      · rw [hIH.2.2.1]
        have hE2 : stE2.renames = st2.renames := by
          rw [hstE2]
          simp [emit]
        rw [← hE2]
        exact hrenB

/-- Counterexample to C3: in the first run the second record is renamed to
the disambiguated name out/d/f_1.x; re-running the copy phase over the
destination tree exactly as the first run left it copies that record AGAIN
(one additional file, under a further disambiguated name), because the
rename-target name is not the computed destination path the identical-file
check looks at. -/
theorem C3_counterexample :
    (copy_files none srcFsC3 groupsC3 "out" 2 [] 0).renames = 1 ∧
    lookupFs (copy_files none srcFsC3 groupsC3 "out" 2 [] 0).fs "out/d/f_1.x"
      = some ⟨"B", true⟩ ∧
    (copy_files none srcFsC3 groupsC3 "out" 2
      (copy_files none srcFsC3 groupsC3 "out" 2 [] 0).fs 0).filesCopied = 1 :=
  ⟨by decide, by rfl, by decide⟩

/-- C3 (amended): if the first copy phase performs no renames, re-running
the copy phase over the same match records, with the destination tree
exactly as the first run left it, copies zero additional files. -/
theorem C3_rerun_idempotent (srcFs : Fs) (gs : List (String × List Rec)) (dR : String)
    (tot : Nat) (destFs : Fs) (p1 p2 : Nat)
    (hren : (copy_files none srcFs gs dR tot destFs p1).renames = 0) :
    (copy_files none srcFs gs dR tot
      (copy_files none srcFs gs dR tot destFs p1).fs p2).filesCopied = 0 := by
  have h1 : (copyGroups none srcFs dR tot (initCopySt destFs p1) gs).renames
      = (initCopySt destFs p1).renames := hren
  have h3 : ∀ x, ledgerHas (initCopySt destFs p1).ledger x = true →
      ledgerHas (initCopySt
        (copy_files none srcFs gs dR tot destFs p1).fs p2).ledger x = true := by
    intro x hx
    simp [initCopySt, ledgerHas] at hx
  have h := twoRun_groups srcFs dR tot (copy_files none srcFs gs dR tot destFs p1).fs gs
    (initCopySt destFs p1)
    (initCopySt (copy_files none srcFs gs dR tot destFs p1).fs p2)
    h1 (fun _ _ hv => hv) h3 rfl
  exact h.2.1

/-- A rename-free first run on a concrete input, and the re-run over its
destination copying nothing. -/
theorem C3_rerun_idempotent_witness :
    (copy_files none [("r/d/f.x", (⟨"A", true⟩ : FileData))]
        [("k", [(⟨"r/d/f.x", "1.2.3", "d"⟩ : Rec)])] "out" 1 [] 0).renames = 0 ∧
    (copy_files none [("r/d/f.x", (⟨"A", true⟩ : FileData))]
        [("k", [(⟨"r/d/f.x", "1.2.3", "d"⟩ : Rec)])] "out" 1
      (copy_files none [("r/d/f.x", (⟨"A", true⟩ : FileData))]
        [("k", [(⟨"r/d/f.x", "1.2.3", "d"⟩ : Rec)])] "out" 1 [] 0).fs 0).filesCopied = 0 :=
  ⟨by decide, C3_rerun_idempotent _ _ _ _ _ _ _ (by decide)⟩

end SmartFileCopier

